import Mathlib

/-!
Verification development for the Calcinium calculator bot
(source: calcinium_bot.py).

The core logic of the program is shallowly embedded here:
  - the classifier is_math_expression,
  - the preprocessor preprocess_expression / convert_power_operator,
  - the AST-based evaluator safe_eval / eval_node,
  - the result formatter and reply dispatch of handle_expression.

Modelling conventions:
  - Strings are lists of characters; case handling models the ASCII
    fragment of Python str.lower and re.IGNORECASE (all inputs of
    interest are ASCII).
  - Python ints are Lean Int; Python floats are modelled as exact
    rationals (IEEE-754 rounding noise is outside the model).  The
    libm-backed transcendental functions (sin, cos, ...) are not
    computable on rationals, so the evaluator is parameterised by a
    MathImpl record supplying them; theorems that depend on a
    particular libm value take that value as a hypothesis.
  - Python exceptions are values of type PyErr.
-/

/- Batteries marks the core rational operations irreducible for
performance; concrete evaluation inside proofs needs them to unfold. -/
attribute [local semireducible] Rat.add Rat.mul Rat.inv Rat.sub Rat.ofScientific

namespace Calcinium

/-- Destructuring a successful Except bind. -/
theorem exceptBind_eq_ok {ε α β : Type} {x : Except ε α} {f : α → Except ε β} {v : β}
    (h : x.bind f = .ok v) : ∃ a, x = .ok a ∧ f a = .ok v := by
  cases x with
  | error e => exact absurd h (by simp [Except.bind])
  | ok a => exact ⟨a, rfl, h⟩

/-- ASCII lower-casing of one character, the fragment of Python
str.lower / re.IGNORECASE used by the program. -/
def lowerC (c : Char) : Char :=
  if 65 ≤ c.toNat ∧ c.toNat ≤ 90 then Char.ofNat (c.toNat + 32) else c

/-- ASCII decimal digit (Python str.isdigit, ASCII fragment). -/
def isDigitC (c : Char) : Bool := decide (48 ≤ c.toNat ∧ c.toNat ≤ 57)

/-- ASCII letter, the class [a-zA-Z]. -/
def isAlphaC (c : Char) : Bool :=
  decide ((65 ≤ c.toNat ∧ c.toNat ≤ 90) ∨ (97 ≤ c.toNat ∧ c.toNat ≤ 122))

/-- Word character, the regex class backslash-w (ASCII fragment):
letters, digits and the underscore. -/
def isWordC (c : Char) : Bool := isAlphaC c || isDigitC c || decide (c.toNat = 95)

/-- Whitespace, the regex class backslash-s: space, tab, newline,
vertical tab, form feed, carriage return. -/
def isSpaceC (c : Char) : Bool :=
  decide (c.toNat = 32 ∨ c.toNat = 9 ∨ c.toNat = 10 ∨ c.toNat = 11 ∨
          c.toNat = 12 ∨ c.toNat = 13)

/-- First character of an identifier, the class [a-zA-Z_]. -/
def isIdentStartC (c : Char) : Bool := isAlphaC c || decide (c.toNat = 95)

def mapLower (l : List Char) : List Char := l.map lowerC

theorem char_toNat_ofNat_valid (n : ℕ) (h : n.isValidChar) :
    (Char.ofNat n).toNat = n := by
  simp only [Char.ofNat, dif_pos h, Char.ofNatAux, Char.toNat, UInt32.toNat]
  simp

theorem char_toNat_inj {a b : Char} (h : a.toNat = b.toNat) : a = b :=
  Char.ext (UInt32.ext h)

theorem toNat_lowerC (c : Char) :
    (lowerC c).toNat = if 65 ≤ c.toNat ∧ c.toNat ≤ 90 then c.toNat + 32 else c.toNat := by
  unfold lowerC
  by_cases h : 65 ≤ c.toNat ∧ c.toNat ≤ 90
  · rw [if_pos h, if_pos h]
    exact char_toNat_ofNat_valid _ (Or.inl (by omega))
  · rw [if_neg h, if_neg h]

theorem lowerC_lowerC (c : Char) : lowerC (lowerC c) = lowerC c := by
  apply char_toNat_inj
  rw [toNat_lowerC, toNat_lowerC]
  split_ifs <;> omega

theorem isAlphaC_false_not_range {t : Char} (ht : isAlphaC t = false) :
    ¬(65 ≤ t.toNat ∧ t.toNat ≤ 90) ∧ ¬(97 ≤ t.toNat ∧ t.toNat ≤ 122) := by
  simp only [isAlphaC, decide_eq_false_iff_not] at ht
  constructor <;> intro h <;> exact ht (by omega)

theorem isDigitC_lowerC (c : Char) : isDigitC (lowerC c) = isDigitC c := by
  simp only [isDigitC, toNat_lowerC]
  split_ifs with h
  · simp only [decide_eq_decide]; omega
  · rfl

theorem isAlphaC_lowerC (c : Char) : isAlphaC (lowerC c) = isAlphaC c := by
  simp only [isAlphaC, toNat_lowerC]
  split_ifs with h
  · simp only [decide_eq_decide]; omega
  · rfl

theorem isWordC_lowerC (c : Char) : isWordC (lowerC c) = isWordC c := by
  simp only [isWordC, isAlphaC, isDigitC, toNat_lowerC]
  split_ifs with h
  · congr 1
    · congr 1
      · simp only [decide_eq_decide]; omega
      · simp only [decide_eq_decide]; omega
    · simp only [decide_eq_decide]; omega
  · rfl

theorem isSpaceC_lowerC (c : Char) : isSpaceC (lowerC c) = isSpaceC c := by
  simp only [isSpaceC, toNat_lowerC]
  split_ifs with h
  · simp only [decide_eq_decide]; omega
  · rfl

theorem isIdentStartC_lowerC (c : Char) : isIdentStartC (lowerC c) = isIdentStartC c := by
  simp only [isIdentStartC, isAlphaC, toNat_lowerC]
  split_ifs with h
  · congr 1
    · simp only [decide_eq_decide]; omega
    · simp only [decide_eq_decide]; omega
  · rfl

/-- A character that is not a lowercase letter is fixed by lowerC. -/
theorem lowerC_eq_self_of_not_upper {c : Char}
    (h : ¬(65 ≤ c.toNat ∧ c.toNat ≤ 90)) : lowerC c = c := by
  unfold lowerC; rw [if_neg h]

/-- Equality with a non-letter character is invariant under lowerC. -/
theorem lowerC_eq_symbol {t : Char} (ht : isAlphaC t = false) (c : Char) :
    (lowerC c = t) = (c = t) := by
  obtain ⟨htu, htl⟩ := isAlphaC_false_not_range ht
  simp only [eq_iff_iff]
  constructor
  · intro h
    by_cases hu : 65 ≤ c.toNat ∧ c.toNat ≤ 90
    · exfalso
      apply htl
      have := toNat_lowerC c
      rw [if_pos hu] at this
      rw [h] at this
      omega
    · rwa [lowerC_eq_self_of_not_upper hu] at h
  · intro h
    subst h
    exact lowerC_eq_self_of_not_upper htu

theorem mapLower_mapLower (l : List Char) : mapLower (mapLower l) = mapLower l := by
  simp only [mapLower, List.map_map]
  apply List.map_congr_left
  intro c _
  exact lowerC_lowerC c

theorem mapLower_length (l : List Char) : (mapLower l).length = l.length := by
  simp [mapLower]

/-! ## Python values and exceptions -/

/-- The Python exceptions that can arise inside safe_eval:
ValueError (raised explicitly by eval_node and by math-domain checks),
ZeroDivisionError, TypeError (wrong argument counts / kinds), and the
SyntaxError of ast.parse. -/
inductive PyErr
  | valueError (msg : String)
  | zeroDivisionError (msg : String)
  | typeError (msg : String)
  | synError (msg : String)
deriving DecidableEq

/-- A Python numeric value: int, or float modelled as an exact
rational. -/
inductive PyVal
  | intV (n : ℤ)
  | floatV (q : ℚ)
deriving DecidableEq

def toQ : PyVal → ℚ
  | .intV n => (n : ℚ)
  | .floatV q => q

/-- The exact rational value of the IEEE-754 double math.pi. -/
def piF : ℚ := 884279719003555 / 281474976710656

/-- The exact rational value of the IEEE-754 double math.e. -/
def eF : ℚ := 6121026514868073 / 2251799813685248

/-- operator.add on numbers: int+int is int, otherwise float. -/
def pyAdd : PyVal → PyVal → Except PyErr PyVal
  | .intV a, .intV b => .ok (.intV (a + b))
  | a, b => .ok (.floatV (toQ a + toQ b))

/-- operator.sub on numbers. -/
def pySub : PyVal → PyVal → Except PyErr PyVal
  | .intV a, .intV b => .ok (.intV (a - b))
  | a, b => .ok (.floatV (toQ a - toQ b))

/-- operator.mul on numbers. -/
def pyMul : PyVal → PyVal → Except PyErr PyVal
  | .intV a, .intV b => .ok (.intV (a * b))
  | a, b => .ok (.floatV (toQ a * toQ b))

/-- operator.truediv: always produces a float; raises
ZeroDivisionError on a zero divisor. -/
def pyDiv : PyVal → PyVal → Except PyErr PyVal
  | .intV x, .intV y =>
      if y = 0 then .error (.zeroDivisionError "division by zero")
      else .ok (.floatV ((x : ℚ) / (y : ℚ)))
  | a, b =>
      if toQ b = 0 then .error (.zeroDivisionError "float division by zero")
      else .ok (.floatV (toQ a / toQ b))

/-- operator.mod: int%int is int with the divisor sign (floor mod);
float mod follows the same sign convention; raises ZeroDivisionError
on a zero divisor. -/
def pyMod : PyVal → PyVal → Except PyErr PyVal
  | .intV x, .intV y =>
      if y = 0 then .error (.zeroDivisionError "integer division or modulo by zero")
      else .ok (.intV (Int.fmod x y))
  | a, b =>
      if toQ b = 0 then .error (.zeroDivisionError "float modulo")
      else .ok (.floatV (toQ a - (⌊toQ a / toQ b⌋ : ℚ) * toQ b))

/-- operator.neg on numbers. -/
def pyNeg : PyVal → PyVal
  | .intV n => .intV (-n)
  | .floatV q => .floatV (-q)

/-- operator.pos on numbers is the identity. -/
def pyPos : PyVal → PyVal := id

/-- The implementations of the libm-backed float functions used by the
allow-list.  They are not computable on exact rationals (sin, sqrt,
log, ... of a rational are irrational in general), so the evaluator is
parameterised by them; each may also raise (e.g. math domain errors).
fpowQ is float exponentiation with a non-integral exponent. -/
structure MathImpl where
  sinQ : ℚ → Except PyErr ℚ
  cosQ : ℚ → Except PyErr ℚ
  tanQ : ℚ → Except PyErr ℚ
  sqrtQ : ℚ → Except PyErr ℚ
  logQ : ℚ → Except PyErr ℚ
  logBaseQ : ℚ → ℚ → Except PyErr ℚ
  log10Q : ℚ → Except PyErr ℚ
  expQ : ℚ → Except PyErr ℚ
  degreesQ : ℚ → Except PyErr ℚ
  radiansQ : ℚ → Except PyErr ℚ
  fpowQ : ℚ → ℚ → Except PyErr ℚ

/-- A concrete MathImpl used to instantiate witness theorems.  Its
values agree with the IEEE-754 doubles produced by libm at the points
the witnesses use (math.sin(0.0) = 0.0 and math.sin(math.pi/2) = 1.0
are exact libm facts). -/
def defaultMath : MathImpl where
  sinQ := fun q => .ok (if q = piF / 2 then 1 else 0)
  cosQ := fun _ => .ok 0
  tanQ := fun _ => .ok 0
  sqrtQ := fun _ => .ok 0
  logQ := fun _ => .ok 0
  logBaseQ := fun _ _ => .ok 0
  log10Q := fun _ => .ok 0
  expQ := fun _ => .ok 0
  degreesQ := fun _ => .ok 0
  radiansQ := fun _ => .ok 0
  fpowQ := fun _ _ => .ok 0

/-- operator.pow: int**int stays int for a nonnegative exponent and
becomes float for a negative one; a float base or exponent gives a
float; 0 to a negative power raises ZeroDivisionError; a non-integral
exponent falls through to the libm implementation. -/
def pyPow (M : MathImpl) : PyVal → PyVal → Except PyErr PyVal
  | .intV x, .intV y =>
      if 0 ≤ y then .ok (.intV (x ^ y.toNat))
      else if x = 0 then .error (.zeroDivisionError "0.0 cannot be raised to a negative power")
      else .ok (.floatV ((x : ℚ) ^ y))
  | a, b =>
      let qa := toQ a
      let qb := toQ b
      if qb.den = 1 then
        if qa = 0 ∧ qb.num < 0 then
          .error (.zeroDivisionError "0.0 cannot be raised to a negative power")
        else .ok (.floatV (qa ^ qb.num))
      else (M.fpowQ qa qb).map .floatV

/-- Round-half-to-even to an integer, the semantics of Python round. -/
def bankersZ (q : ℚ) : ℤ :=
  let f := ⌊q⌋
  let r := q - (f : ℚ)
  if r < 1 / 2 then f
  else if 1 / 2 < r then f + 1
  else if Even f then f else f + 1

/-- Round-half-to-even at n decimal digits (Python round(x, n) on the
exact-rational float model). -/
def roundTo (q : ℚ) (n : ℤ) : ℚ := (bankersZ (q * (10 : ℚ) ^ n) : ℚ) * (10 : ℚ) ^ (-n)

/-! ## The function allow-list -/

/-- The keys of the allowed_functions dict, in source order. -/
def allowedFunctionNames : List String :=
  ["sin", "cos", "tan", "sqrt", "log", "log10", "exp", "abs", "round",
   "pow", "ceil", "floor", "factorial", "degrees", "radians"]

/-- Apply a one-float-argument libm function: exactly one argument is
accepted, anything else is the TypeError a CPython call would raise. -/
def oneArgQ (f : ℚ → Except PyErr ℚ) (fname : String) (args : List PyVal) :
    Except PyErr PyVal :=
  match args with
  | [x] => (f (toQ x)).map .floatV
  | l => .error (.typeError
      (fname ++ "() takes exactly one argument (" ++ toString l.length ++ " given)"))

/-- Python round: one argument rounds to an int (half-to-even); a
second int argument selects the decimal position; a float second
argument is a TypeError. -/
def pyRound : List PyVal → Except PyErr PyVal
  | [.intV m] => .ok (.intV m)
  | [.floatV q] => .ok (.intV (bankersZ q))
  | [.intV m, .intV n] =>
      if 0 ≤ n then .ok (.intV m)
      else .ok (.intV (bankersZ ((m : ℚ) * (10 : ℚ) ^ n) * 10 ^ (-n).toNat))
  | [.floatV q, .intV n] => .ok (.floatV (roundTo q n))
  | [_, .floatV _] => .error (.typeError "\x27float\x27 object cannot be interpreted as an integer")
  | l => .error (.typeError
      ("round() takes at most 2 arguments (" ++ toString l.length ++ " given)"))

/-- Python pow: with two arguments it is operator.pow; the three
argument modular form requires ints (modelled for a nonnegative
exponent; the negative-exponent modular-inverse form is collapsed to
its error case, which no caller of this development exercises). -/
def pyPowFn (M : MathImpl) : List PyVal → Except PyErr PyVal
  | [a, b] => pyPow M a b
  | [.intV a, .intV b, .intV m] =>
      if m = 0 then .error (.valueError "pow() 3rd argument cannot be 0")
      else if 0 ≤ b then .ok (.intV (Int.fmod (a ^ b.toNat) m))
      else .error (.valueError "base is not invertible for the given modulus")
  | [_, _, _] => .error (.typeError "pow() 3rd argument not allowed unless all arguments are integers")
  | l => .error (.typeError ("pow expected 2 or 3 arguments, got " ++ toString l.length))

/-- math.factorial: nonnegative int only. -/
def pyFactorial : List PyVal → Except PyErr PyVal
  | [.intV n] =>
      if n < 0 then .error (.valueError "factorial() not defined for negative values")
      else .ok (.intV (Nat.factorial n.toNat))
  | [.floatV _] => .error (.typeError "\x27float\x27 object cannot be interpreted as an integer")
  | l => .error (.typeError
      ("factorial() takes exactly one argument (" ++ toString l.length ++ " given)"))

/-- abs preserves the numeric kind. -/
def pyAbs : List PyVal → Except PyErr PyVal
  | [.intV n] => .ok (.intV |n|)
  | [.floatV q] => .ok (.floatV |q|)
  | l => .error (.typeError
      ("abs() takes exactly one argument (" ++ toString l.length ++ " given)"))

/-- math.ceil / math.floor produce ints. -/
def pyCeil : List PyVal → Except PyErr PyVal
  | [x] => .ok (.intV ⌈toQ x⌉)
  | l => .error (.typeError
      ("ceil() takes exactly one argument (" ++ toString l.length ++ " given)"))

def pyFloor : List PyVal → Except PyErr PyVal
  | [x] => .ok (.intV ⌊toQ x⌋)
  | l => .error (.typeError
      ("floor() takes exactly one argument (" ++ toString l.length ++ " given)"))

/-- math.log: natural log with one argument, explicit base with two. -/
def pyLog (M : MathImpl) : List PyVal → Except PyErr PyVal
  | [x] => (M.logQ (toQ x)).map .floatV
  | [x, b] => (M.logBaseQ (toQ x) (toQ b)).map .floatV
  | l => .error (.typeError
      ("log() takes at most 2 arguments (" ++ toString l.length ++ " given)"))

/-- Dispatch of allowed_functions[name](*args): the Python call of the
resolved allow-listed function on already-evaluated arguments. -/
def applyFunc (M : MathImpl) (fname : String) (args : List PyVal) : Except PyErr PyVal :=
  if fname = "sin" then oneArgQ M.sinQ "sin" args
  else if fname = "cos" then oneArgQ M.cosQ "cos" args
  else if fname = "tan" then oneArgQ M.tanQ "tan" args
  else if fname = "sqrt" then oneArgQ M.sqrtQ "sqrt" args
  else if fname = "log" then pyLog M args
  else if fname = "log10" then oneArgQ M.log10Q "log10" args
  else if fname = "exp" then oneArgQ M.expQ "exp" args
  else if fname = "abs" then pyAbs args
  else if fname = "round" then pyRound args
  else if fname = "pow" then pyPowFn M args
  else if fname = "ceil" then pyCeil args
  else if fname = "floor" then pyFloor args
  else if fname = "factorial" then pyFactorial args
  else if fname = "degrees" then oneArgQ M.degreesQ "degrees" args
  else if fname = "radians" then oneArgQ M.radiansQ "radians" args
  else .error (.valueError ("Function \x27" ++ fname ++ "\x27 not allowed"))

/-! ## The syntax tree and eval_node -/

/-- The Python ast binary operators that can appear under BinOp.
add..mod are the allow-listed ones; the rest are representative
members of the grammar with no allow-listed semantics. -/
inductive BinK
  | add | sub | mult | div | pow | mod
  | floorDiv | bitOr | bitXor | bitAnd | lshift | rshift
deriving DecidableEq

/-- type(node.op).__name__ for error messages. -/
def BinK.pyName : BinK → String
  | .add => "Add" | .sub => "Sub" | .mult => "Mult" | .div => "Div"
  | .pow => "Pow" | .mod => "Mod" | .floorDiv => "FloorDiv"
  | .bitOr => "BitOr" | .bitXor => "BitXor" | .bitAnd => "BitAnd"
  | .lshift => "LShift" | .rshift => "RShift"

/-- The ast unary operators. -/
inductive UnK
  | usub | uadd | invert
deriving DecidableEq

def UnK.pyName : UnK → String
  | .usub => "USub" | .uadd => "UAdd" | .invert => "Invert"

/-- allowed_ops lookup for a binary operator: the dict maps the six
arithmetic operators; .get returns none elsewhere. -/
def allowedBinOp (M : MathImpl) : BinK → Option (PyVal → PyVal → Except PyErr PyVal)
  | .add => some pyAdd
  | .sub => some pySub
  | .mult => some pyMul
  | .div => some pyDiv
  | .pow => some (pyPow M)
  | .mod => some pyMod
  | _ => none

/-- allowed_ops lookup for a unary operator. -/
def allowedUnOp : UnK → Option (PyVal → PyVal)
  | .usub => some pyNeg
  | .uadd => some pyPos
  | .invert => none

/- The Python expression AST as eval_node sees it: Constant, Name,
BinOp, UnaryOp and Call are the handled shapes; Attribute (e.g.
os.system) and otherNode (any further ast node kind, e.g. Compare or
Lambda) fall to the rejecting else branch. -/
mutual
inductive Node
  | constant (v : PyVal)
  | nameN (id : String)
  | binOp (op : BinK) (l : Node) (r : Node)
  | unaryOp (op : UnK) (e : Node)
  | call (fn : Node) (args : NodeList)
  | attrN (obj : Node) (field : String)
  | otherNode (kind : String)
inductive NodeList
  | nil
  | cons (a : Node) (rest : NodeList)
end

/- eval_node: recursive structural evaluation over the allow-lists.
Mirrors eval_node of the source line by line; evalArgs is the list
comprehension over node.args (left to right, first failure wins). -/
mutual
def evalNode (M : MathImpl) : Node → Except PyErr PyVal
  | .constant v => .ok v
  | .nameN id =>
      if id = "pi" then .ok (.floatV piF)
      else if id = "e" then .ok (.floatV eF)
      else .error (.valueError ("Name \x27" ++ id ++ "\x27 not allowed"))
  | .binOp op l r => do
      let lv ← evalNode M l
      let rv ← evalNode M r
      match allowedBinOp M op with
      | some f => f lv rv
      | none => .error (.valueError ("Operator " ++ op.pyName ++ " not allowed"))
  | .unaryOp op e => do
      let v ← evalNode M e
      match allowedUnOp op with
      | some f => .ok (f v)
      | none => .error (.valueError ("Operator " ++ op.pyName ++ " not allowed"))
  | .call fn args =>
      match fn with
      | .nameN f =>
          if f ∈ allowedFunctionNames then do
            let vs ← evalArgs M args
            applyFunc M f vs
          else .error (.valueError ("Function \x27" ++ f ++ "\x27 not allowed"))
      | _ => .error (.valueError "Function \x27unknown\x27 not allowed")
  | .attrN _ _ => .error (.valueError "Node type Attribute not allowed")
  | .otherNode kind => .error (.valueError ("Node type " ++ kind ++ " not allowed"))
def evalArgs (M : MathImpl) : NodeList → Except PyErr (List PyVal)
  | .nil => .ok []
  | .cons a rest => do
      let v ← evalNode M a
      let vs ← evalArgs M rest
      .ok (v :: vs)
end

/-! ## convert_power_operator

The source rewrites the pattern
  ([a-zA-Z_][a-zA-Z0-9_]*|d+(, optionally .d+)|one parenthesised
   group with a nonempty )-free body) ws* ** ws* (same operand shape)
to pow(group1, group2), re-running re.sub until a fixed point.  For
this literal pattern the Python regex engine's leftmost match with
greedy repetition is equivalent to the maximal-munch scan implemented
here (shrinking a greedy run only exposes a character that cannot
start ws* ** anyway, and which alternative applies is decided by the
first character). -/

/-- After the leading digit of a number operand: the further digits
and the optional .digits group, read maximally. -/
def numberTail (r : List Char) : List Char × List Char :=
  let ds := r.takeWhile isDigitC
  match r.dropWhile isDigitC with
  | '.' :: r2 =>
      let ds2 := r2.takeWhile isDigitC
      if ds2.isEmpty then (ds, r.dropWhile isDigitC)
      else (ds ++ '.' :: ds2, r2.dropWhile isDigitC)
  | _ => (ds, r.dropWhile isDigitC)

/-- A parenthesised-group operand after its opening parenthesis: a
nonempty run of characters other than the closing parenthesis,
followed by one. -/
def parenAt (r : List Char) : Option (List Char × List Char) :=
  let inner := r.takeWhile (fun d => d ≠ ')')
  match r.dropWhile (fun d => d ≠ ')') with
  | ')' :: r2 => if inner.isEmpty then none else some ('(' :: (inner ++ [')']), r2)
  | _ => none

/-- One operand of the power pattern: an identifier, a number, or a
parenthesised group, read maximally at the head of the input; returns
the matched text and the remaining input. -/
def operandAt : List Char → Option (List Char × List Char)
  | [] => none
  | c :: r =>
    if isIdentStartC c then
      some (c :: r.takeWhile isWordC, r.dropWhile isWordC)
    else if isDigitC c then
      some (c :: (numberTail r).1, (numberTail r).2)
    else if c = '(' then parenAt r
    else none

/-- A full match of the power pattern at the head of the input:
operand, optional whitespace, two stars, optional whitespace, operand.
Returns the two operand texts and the input after the match. -/
def matchPowAt (s : List Char) : Option (List Char × List Char × List Char) :=
  match operandAt s with
  | none => none
  | some (a, r1) =>
    match r1.dropWhile isSpaceC with
    | '*' :: '*' :: r3 =>
      match operandAt (r3.dropWhile isSpaceC) with
      | none => none
      | some (b, r5) => some (a, b, r5)
    | _ => none

/-- The replacement text pow(A, B). -/
def mkRepl (a b : List Char) : List Char :=
  'p' :: 'o' :: 'w' :: '(' :: (a ++ ',' :: ' ' :: (b ++ [')']))

theorem numberTail_decomp (r : List Char) :
    r = (numberTail r).1 ++ (numberTail r).2 := by
  unfold numberTail
  dsimp only
  split
  · next r2 heq =>
    split_ifs with hempty
    · simp [List.takeWhile_append_dropWhile]
    · have hrr : r = r.takeWhile isDigitC ++ r.dropWhile isDigitC :=
        (List.takeWhile_append_dropWhile ..).symm
      rw [heq] at hrr
      conv_lhs => rw [hrr]
      simp [List.takeWhile_append_dropWhile]
  · simp [List.takeWhile_append_dropWhile]

theorem parenAt_decomp {r a rest : List Char} (h : parenAt r = some (a, rest)) :
    r = (a ++ rest).tail ∧ a ≠ [] ∧ ∃ inner, a = '(' :: (inner ++ [')']) := by
  unfold parenAt at h
  dsimp only at h
  revert h
  split
  · next r2 heq =>
    split_ifs with hempty
    · intro h; cases h
    · intro h
      cases h
      have hr : r = r.takeWhile (fun d => decide (d ≠ ')')) ++
          r.dropWhile (fun d => decide (d ≠ ')')) :=
        (List.takeWhile_append_dropWhile ..).symm
      rw [heq] at hr
      refine ⟨?_, by simp, _, rfl⟩
      conv_lhs => rw [hr]
      simp
  · intro h; cases h

theorem operandAt_decomp {s a rest : List Char} (h : operandAt s = some (a, rest)) :
    s = a ++ rest ∧ a ≠ [] := by
  cases s with
  | nil => simp [operandAt] at h
  | cons c r =>
    simp only [operandAt] at h
    split_ifs at h with h1 h2 h3
    · cases h
      refine ⟨?_, by simp⟩
      simp [List.takeWhile_append_dropWhile]
    · cases h
      refine ⟨?_, by simp⟩
      rw [List.cons_append]
      congr 1
      exact numberTail_decomp r
    · obtain ⟨hr, hne, inner, ha⟩ := parenAt_decomp h
      subst h3
      refine ⟨?_, hne⟩
      subst ha
      simp only [List.cons_append, List.tail_cons] at hr ⊢
      rw [hr]

theorem length_dropWhile_le (p : Char → Bool) (l : List Char) :
    (l.dropWhile p).length ≤ l.length := by
  conv_rhs => rw [← List.takeWhile_append_dropWhile (p := p) (l := l)]
  rw [List.length_append]
  omega

/-- Unpacked shape of a successful matchPowAt. -/
theorem matchPowAt_parts {s a b rest : List Char}
    (h : matchPowAt s = some (a, b, rest)) :
    ∃ r1 r3, operandAt s = some (a, r1) ∧
      r1.dropWhile isSpaceC = '*' :: '*' :: r3 ∧
      operandAt (r3.dropWhile isSpaceC) = some (b, rest) := by
  unfold matchPowAt at h
  revert h
  split
  · intro h; cases h
  · next p heq1 =>
    split
    · next r3 heq2 =>
      split
      · intro h; cases h
      · next q heq3 =>
        intro h
        cases h
        exact ⟨_, _, heq1, heq2, heq3⟩
    · intro h; cases h

theorem matchPowAt_rest_lt {s a b rest : List Char}
    (h : matchPowAt s = some (a, b, rest)) : rest.length < s.length := by
  obtain ⟨r1, r3, heq1, heq2, heq3⟩ := matchPowAt_parts h
  obtain ⟨hs1, ha1⟩ := operandAt_decomp heq1
  obtain ⟨hs2, hb1⟩ := operandAt_decomp heq3
  have l1 : r1.length < s.length := by
    rw [hs1, List.length_append]
    cases a with
    | nil => exact absurd rfl ha1
    | cons x xs => simp
  have l2 : (r1.dropWhile isSpaceC).length ≤ r1.length := length_dropWhile_le ..
  have l3 : r3.length + 2 = (r1.dropWhile isSpaceC).length := by rw [heq2]; simp
  have l4 : (r3.dropWhile isSpaceC).length ≤ r3.length := length_dropWhile_le ..
  have l5 : rest.length < (r3.dropWhile isSpaceC).length := by
    rw [hs2, List.length_append]
    cases b with
    | nil => exact absurd rfl hb1
    | cons x xs => simp
  omega

/-- One re.sub pass of the power pattern: scan left to right, replace
each non-overlapping match, resume after the replaced stretch.  The
skip counter carries how many characters of an already-replaced match
remain to be dropped, which makes the recursion structural; the
re-scan recursion shape is recovered by powRound_cons below. -/
def powRoundA : ℕ → List Char → List Char
  | _, [] => []
  | k + 1, _ :: r => powRoundA k r
  | 0, c :: r =>
    match matchPowAt (c :: r) with
    | some (a, b, rest) => mkRepl a b ++ powRoundA ((c :: r).length - rest.length - 1) r
    | none => c :: powRoundA 0 r

def powRound (s : List Char) : List Char := powRoundA 0 s

theorem powRoundA_skip (k : ℕ) (l : List Char) :
    powRoundA k l = powRoundA 0 (List.drop k l) := by
  induction k generalizing l with
  | zero => rw [List.drop_zero]
  | succ j ih =>
    cases l with
    | nil => rfl
    | cons c r => rw [List.drop_succ_cons]; exact ih r

/-- The number of positions at which the two-character pattern ** in
the re.sub loop's guard occurs (positions counted with overlap). -/
def countPowAux (prev : Char) : List Char → ℕ
  | [] => 0
  | c :: r => (if prev = '*' && c = '*' then 1 else 0) + countPowAux c r

def countPow : List Char → ℕ
  | [] => 0
  | c :: r => countPowAux c r

/-- The bounded fixed-point iteration modelling the source's
while prev_expr != expr loop; countPow s + 1 rounds are enough, which
theorem c10_power_rewrite_terminates proves. -/
def convertPowerLoop : ℕ → List Char → List Char
  | 0, s => s
  | n + 1, s =>
      let s' := powRound s
      if s' = s then s else convertPowerLoop n s'

def convertPowerL (s : List Char) : List Char := convertPowerLoop (countPow s + 1) s

/-- convert_power_operator of the source. -/
def convert_power_operator (s : String) : String := ⟨convertPowerL s.data⟩

/-! ## Case-folding substitutions of preprocess_expression

re.sub of a literal pattern compiled with re.IGNORECASE: a window
matches iff its lowercasing equals the (lowercase) pattern; matches
are non-overlapping, taken leftmost first. -/

/-- Case-insensitive literal-prefix test: f (given lowercase) matches
the head of s ignoring case. -/
def isPrefixCI (f s : List Char) : Bool := f.isPrefixOf (mapLower s)

/-- re.sub(re.compile(re.escape(f), re.IGNORECASE), f, s) for a
lowercase literal f: each case-insensitive occurrence of f is
rewritten to f itself.  Structural recursion with a skip counter for
the remainder of a replaced window. -/
def caseSubA (f : List Char) : ℕ → List Char → List Char
  | _, [] => []
  | k + 1, _ :: r => caseSubA f k r
  | 0, c :: r =>
    if isPrefixCI f (c :: r) then f ++ caseSubA f (f.length - 1) r
    else c :: caseSubA f 0 r

def caseSub (f : List Char) (s : List Char) : List Char := caseSubA f 0 s

theorem caseSubA_skip (f : List Char) (k : ℕ) (l : List Char) :
    caseSubA f k l = caseSubA f 0 (List.drop k l) := by
  induction k generalizing l with
  | zero => rw [List.drop_zero]
  | succ j ih =>
    cases l with
    | nil => rfl
    | cons c r => rw [List.drop_succ_cons]; exact ih r

theorem caseSub_nil (f : List Char) : caseSub f [] = [] := rfl

/-- The re-scan recursion shape of caseSub. -/
theorem caseSub_cons (f : List Char) (c : Char) (r : List Char) :
    caseSub f (c :: r) =
      if isPrefixCI f (c :: r) then f ++ caseSub f (List.drop (f.length - 1) r)
      else c :: caseSub f r := by
  show caseSubA f 0 (c :: r) = _
  rw [caseSubA]
  split_ifs with h
  · rw [caseSubA_skip]; rfl
  · rfl

/-- The next character after a window of length f.length is absent or
not a word character (the trailing backslash-b of the constant
patterns; f ends in a word character for both pi and e). -/
def boundaryAfter (f s : List Char) : Bool :=
  match List.drop f.length s with
  | [] => true
  | d :: _ => !isWordC d

def lastIsWordC (f : List Char) : Bool :=
  match f.getLast? with
  | some c => isWordC c
  | none => false

/-- The word-ness of the character preceding the current position
after consuming t, starting from state p. -/
def prevAfter (p : Bool) (t : List Char) : Bool :=
  match t.getLast? with
  | some d => isWordC d
  | none => p

/-- re.sub of backslash-b f backslash-b with re.IGNORECASE for a
lowercase constant name f starting and ending in word characters
(pi, e): prevW carries whether the previous character of the original
text is a word character.  Structural recursion with a skip counter;
the re-scan recursion shape is recovered by wordSub_cons below. -/
def wordSubA (f : List Char) : Bool → ℕ → List Char → List Char
  | _, _, [] => []
  | _, k + 1, c :: r => wordSubA f (isWordC c) k r
  | prevW, 0, c :: r =>
    if !prevW && isPrefixCI f (c :: r) && boundaryAfter f (c :: r) then
      f ++ wordSubA f (isWordC c) (f.length - 1) r
    else c :: wordSubA f (isWordC c) 0 r

def wordSub (f : List Char) (prevW : Bool) (s : List Char) : List Char :=
  wordSubA f prevW 0 s

theorem prevAfter_cons (p : Bool) (c : Char) (t : List Char) :
    prevAfter p (c :: t) = prevAfter (isWordC c) t := by
  cases t with
  | nil => rfl
  | cons d u =>
    unfold prevAfter
    rw [List.getLast?_cons_cons]
    cases hgl : (d :: u).getLast? with
    | none => exact absurd hgl (by simp)
    | some e => rfl

theorem wordSubA_skip (f : List Char) (k : ℕ) :
    ∀ (l : List Char) (p : Bool),
      wordSubA f p k l = wordSubA f (prevAfter p (l.take k)) 0 (List.drop k l) := by
  induction k with
  | zero => intro l p; rw [List.drop_zero, List.take_zero]; rfl
  | succ j ih =>
    intro l p
    cases l with
    | nil => rfl
    | cons c r =>
      rw [List.drop_succ_cons, List.take_succ_cons, prevAfter_cons]
      exact ih r (isWordC c)

/-- The case-insensitive window matched at the head of c :: r reads
back, lowercased, as f itself. -/
theorem window_mapLower (f : List Char) (hf : f ≠ []) {c : Char} {r : List Char}
    (hp : isPrefixCI f (c :: r) = true) :
    mapLower (c :: r.take (f.length - 1)) = f := by
  have hpre : f <+: mapLower (c :: r) := by
    simpa [isPrefixCI, List.isPrefixOf_iff_prefix] using hp
  have heq : f = (mapLower (c :: r)).take f.length := List.prefix_iff_eq_take.mp hpre
  obtain ⟨f0, ftl, hfeq⟩ : ∃ f0 ftl, f = f0 :: ftl := by
    cases f with
    | nil => exact absurd rfl hf
    | cons a b => exact ⟨a, b, rfl⟩
  conv_rhs => rw [heq]
  subst hfeq
  simp only [List.length_cons, Nat.add_sub_cancel, mapLower, List.map_cons,
    List.take_succ_cons, List.map_take]

/-- At the end of a matched window, the previous-character state is
the word-ness of the last character of f. -/
theorem prevAfter_window (f : List Char) (hf : f ≠ []) {c : Char} {r : List Char}
    (hp : isPrefixCI f (c :: r) = true) :
    prevAfter (isWordC c) (r.take (f.length - 1)) = lastIsWordC f := by
  have hw := window_mapLower f hf hp
  cases ht : r.take (f.length - 1) with
  | nil =>
    rw [ht] at hw
    have : f = [lowerC c] := by simpa [mapLower] using hw.symm
    rw [this]
    simp [prevAfter, lastIsWordC, isWordC_lowerC]
  | cons d u =>
    rw [ht] at hw
    have hlast : f.getLast? = ((d :: u).getLast?).map lowerC := by
      rw [← hw]
      simp only [mapLower, List.map_cons]
      rw [List.getLast?_cons_cons, ← List.getLast?_map]
      rfl
    obtain ⟨e, he⟩ : ∃ e, (d :: u).getLast? = some e := by
      cases hgl : (d :: u).getLast? with
      | none => exact absurd hgl (by simp)
      | some e => exact ⟨e, rfl⟩
    rw [he] at hlast
    simp only [prevAfter, he, lastIsWordC, hlast, Option.map_some]
    exact (isWordC_lowerC e).symm

/-- The re-scan recursion shape of wordSub. -/
theorem wordSub_cons (f : List Char) (hf : f ≠ []) (p : Bool) (c : Char) (r : List Char) :
    wordSub f p (c :: r) =
      if !p && isPrefixCI f (c :: r) && boundaryAfter f (c :: r) then
        f ++ wordSub f (lastIsWordC f) (List.drop (f.length - 1) r)
      else c :: wordSub f (isWordC c) r := by
  show wordSubA f p 0 (c :: r) = _
  rw [wordSubA]
  split_ifs with h
  · have hp : isPrefixCI f (c :: r) = true := by
      simp only [Bool.and_eq_true] at h
      exact h.1.2
    rw [wordSubA_skip, prevAfter_window f hf hp]
    rfl
  · rfl

/-- The function_names list of preprocess_expression, source order. -/
def preprocessorFunctionNames : List String :=
  ["sin", "cos", "tan", "sqrt", "log", "log10", "exp", "abs", "round",
   "pow", "ceil", "floor", "factorial", "degrees", "radians"]

/-- The for-loop over function_names: successive case-insensitive
substring substitutions. -/
def caseFoldFunctions (s : List Char) : List Char :=
  (preprocessorFunctionNames.map String.data).foldl (fun acc f => caseSub f acc) s

/-- preprocess_expression on character lists: power-operator rewrite,
then function-name case folding, then whole-word constant case
folding for pi and then e (the constants dict iterates in insertion
order). -/
def preprocessL (s : List Char) : List Char :=
  let s1 := convertPowerL s
  let s2 := caseFoldFunctions s1
  let s3 := wordSub "pi".data false s2
  wordSub "e".data false s3

/-- preprocess_expression of the source. -/
def preprocess_expression (s : String) : String := ⟨preprocessL s.data⟩

/-! ## The classifier is_math_expression

Each regex of the source is rendered as a scanner over character
lists: re.search tries a match at every position left to right, and
for these patterns (literal runs with greedy character-class
repetition) a maximal-munch attempt at each position is equivalent,
because shrinking a greedy run only exposes a character of the same
class, which the following pattern element always rejects. -/

/-- The operator class of the prose patterns: star, plus, minus, slash. -/
def isOp4C (c : Char) : Bool := c = '*' || c = '+' || c = '-' || c = '/'

/-- The operator class of the operator patterns: [+-*/^%]. -/
def isOp6C (c : Char) : Bool :=
  c = '+' || c = '-' || c = '*' || c = '/' || c = '^' || c = '%'

/-- One attempt of letter whitespace+ digits+ ws* op ws* digit (the
first prose-embedded-arithmetic pattern). -/
def p1At : List Char → Bool
  | [] => false
  | c :: r =>
      isAlphaC c &&
      !(r.takeWhile isSpaceC).isEmpty &&
      (let t1 := r.dropWhile isSpaceC
       !(t1.takeWhile isDigitC).isEmpty &&
       (match (t1.dropWhile isDigitC).dropWhile isSpaceC with
        | o :: t3 =>
            isOp4C o &&
            (match t3.dropWhile isSpaceC with
             | d :: _ => isDigitC d
             | [] => false)
        | [] => false))

/-- One attempt of digits+ ws* op ws* digits+ ws+ letter. -/
def p2At : List Char → Bool
  | [] => false
  | c :: r =>
      isDigitC c &&
      (match (r.dropWhile isDigitC).dropWhile isSpaceC with
       | o :: t2 =>
           isOp4C o &&
           (match t2.dropWhile isSpaceC with
            | d :: t4 =>
                isDigitC d &&
                (let t5 := t4.dropWhile isDigitC
                 !(t5.takeWhile isSpaceC).isEmpty &&
                 (match t5.dropWhile isSpaceC with
                  | a :: _ => isAlphaC a
                  | [] => false))
            | [] => false)
       | [] => false)

/-- One attempt of digits+ ws* [+-*/^%] ws* digit. -/
def opNumAt : List Char → Bool
  | [] => false
  | c :: r =>
      isDigitC c &&
      (match (r.dropWhile isDigitC).dropWhile isSpaceC with
       | o :: t2 =>
           isOp6C o &&
           (match t2.dropWhile isSpaceC with
            | d :: _ => isDigitC d
            | [] => false)
       | [] => false)

/-- One attempt of a parenthesised operator group: ( then a )-free
run containing an operator character, then ). -/
def parenOpAt : List Char → Bool
  | '(' :: r =>
      (r.takeWhile (fun d => d ≠ ')')).any isOp6C &&
      (match r.dropWhile (fun d => d ≠ ')') with
       | ')' :: _ => true
       | _ => false)
  | _ => false

/-- Try a positionwise matcher at every position (re.search). -/
def scanAny (p : List Char → Bool) : List Char → Bool
  | [] => false
  | c :: r => p (c :: r) || scanAny p r

/-- The literal two-star pattern. -/
def hasStarStar (s : List Char) : Bool :=
  scanAny (fun t => match t with | '*' :: '*' :: _ => true | _ => false) s

/-- Try a matcher that needs the word-ness of the preceding character
(for patterns with a leading backslash-b) at every position. -/
def scanBound (p : Bool → List Char → Bool) (prevW : Bool) : List Char → Bool
  | [] => false
  | c :: r => p prevW (c :: r) || scanBound p (isWordC c) r

/-- One attempt of backslash-b (pi|e) backslash-b (on lowered text). -/
def constWordAt (prevW : Bool) (s : List Char) : Bool :=
  !prevW &&
  (("pi".data.isPrefixOf s && boundaryAfter "pi".data s) ||
   ("e".data.isPrefixOf s && boundaryAfter "e".data s))

/-- re.search of backslash-b(pi|e)backslash-b. -/
def hasConstWord (s : List Char) : Bool := scanBound constWordAt false s

/-- One attempt of backslash-b name ws* ( , for an allow-listed
function name (on lowered text). -/
def funcCallAt (w : List Char) (prevW : Bool) (s : List Char) : Bool :=
  !prevW && w.isPrefixOf s &&
  (match (List.drop w.length s).dropWhile isSpaceC with
   | '(' :: _ => true
   | _ => false)

/-- The function_patterns list of is_math_expression, source order. -/
def classifierFunctionNames : List String :=
  ["sin", "cos", "tan", "sqrt", "log", "exp", "abs", "round", "pow",
   "ceil", "floor", "factorial", "degrees", "radians", "log10"]

/-- The non_math_words block list, source order. -/
def nonMathWords : List String :=
  ["work", "available", "online", "service", "support", "help",
   "hours", "days", "time", "schedule", "shift", "open",
   "round", "game", "match", "tournament", "level", "stage",
   "chapter", "episode", "season", "day", "week", "month",
   "year", "hour", "minute", "second", "page", "will", "now",
   "step", "phase", "part", "section", "question", "problem",
   "test", "exam", "quiz", "lesson", "class", "grade",
   "score", "point", "goal", "target", "limit", "max",
   "min", "total", "sum", "count", "number", "amount",
   "price", "cost", "value", "rate", "percent", "degree",
   "host", "server", "bot", "it", "this", "that", "the"]

/-- Python str.split() with no argument: split on whitespace runs,
dropping empty pieces (accumulator style, current word reversed). -/
def splitWSA (cur : List Char) : List Char → List (List Char)
  | [] => if cur.isEmpty then [] else [cur.reverse]
  | c :: r =>
    if isSpaceC c then
      if cur.isEmpty then splitWSA [] r else cur.reverse :: splitWSA [] r
    else splitWSA (c :: cur) r

def splitWS (s : List Char) : List (List Char) := splitWSA [] s

/-- re.sub(r'[^backslash-w]', '', word.lower()): lowercase then keep
word characters only. -/
def cleanWord (w : List Char) : List Char := (mapLower w).filter isWordC

/-- is_math_expression of the source, rule for rule. -/
def is_math_expressionL (s : List Char) : Bool :=
  if s.length > 100 then false
  else if !(s.any isDigitC || hasConstWord (mapLower s)) then false
  else if scanAny p1At s || scanAny p2At s then false
  else
    let words := splitWS s
    if words.length > 5 then false
    else if words.length > 1 &&
        words.any (fun w => (nonMathWords.map String.data).contains (cleanWord w)) then false
    else
      let hasOperator := scanAny opNumAt s || scanAny parenOpAt s || hasStarStar s
      let hasFunction :=
        (classifierFunctionNames.map String.data).any
          (fun w => scanBound (funcCallAt w) false (mapLower s))
      let hasConstant := hasConstWord (mapLower s)
      hasOperator || hasFunction || hasConstant

/-- is_math_expression of the source. -/
def is_math_expression (s : String) : Bool := is_math_expressionL s.data

/-- Python str.strip() (whitespace strip on both ends). -/
def stripL (s : List Char) : List Char :=
  ((s.dropWhile isSpaceC).reverse.dropWhile isSpaceC).reverse

/-! ## ast.parse(expr, mode=eval) for the arithmetic fragment

The tokenizer and recursive-descent parser below model the Python
grammar fragment reachable from this program: decimal int and float
literals (with optional fraction and exponent), identifiers, calls,
parentheses, the arithmetic operators with Python precedence, and the
bitwise/shift operators (whose BinOp nodes eval_node then rejects).
Non-arithmetic syntax (strings, comparisons, hex literals, ...) is
mapped to a SyntaxError; every claim that exercises the parser does so
on inputs inside this fragment, and any failure is wrapped into the
same generic ValueError by safe_eval either way. -/

inductive Tok
  | num (v : PyVal)
  | ident (s : String)
  | opT (s : String)
  | lpar
  | rpar
  | comma
deriving DecidableEq

def digitsVal (l : List Char) : ℕ := l.foldl (fun acc c => acc * 10 + (c.toNat - 48)) 0

/-- Lex one numeric literal at the head of the input (which starts
with a digit, or a dot followed by a digit): digits, optional
.digits fraction, optional e/E exponent with optional sign.  A
decimal int literal may not have leading zeros unless it is all
zeros; a literal directly followed by an identifier character is
rejected (invalid decimal literal). -/
def lexNumber (s : List Char) : Option (PyVal × List Char) :=
  let ip := s.takeWhile isDigitC
  let r1 := s.dropWhile isDigitC
  let fin : PyVal → List Char → Option (PyVal × List Char) := fun v rest =>
    match rest with
    | d :: _ => if isIdentStartC d then none else some (v, rest)
    | [] => some (v, [])
  let mant : Option (ℚ × Bool × List Char) :=
    match r1 with
    | '.' :: r2 =>
        let fp := r2.takeWhile isDigitC
        if ip.isEmpty && fp.isEmpty then none
        else some ((digitsVal ip : ℚ) + (digitsVal fp : ℚ) / (10 : ℚ) ^ fp.length,
                   true, r2.dropWhile isDigitC)
    | _ => if ip.isEmpty then none else some ((digitsVal ip : ℚ), false, r1)
  match mant with
  | none => none
  | some (m, isF, r4) =>
    match r4 with
    | c :: r5 =>
      if c = 'e' || c = 'E' then
        let sr : Bool × List Char :=
          match r5 with
          | '+' :: r6 => (false, r6)
          | '-' :: r6 => (true, r6)
          | _ => (false, r5)
        let ed := sr.2.takeWhile isDigitC
        if ed.isEmpty then none
        else
          let e : ℤ := if sr.1 then -(digitsVal ed : ℤ) else (digitsVal ed : ℤ)
          fin (.floatV (m * (10 : ℚ) ^ e)) (sr.2.dropWhile isDigitC)
      else if isF then fin (.floatV m) r4
      else if ip.headD '0' = '0' ∧ ip.any (fun d => d ≠ '0') then none
      else fin (.intV (digitsVal ip : ℤ)) r4
    | [] =>
      if isF then some (.floatV m, [])
      else if ip.headD '0' = '0' ∧ ip.any (fun d => d ≠ '0') then none
      else some (.intV (digitsVal ip : ℤ), [])

/-- The tokenizer, with fuel (each step consumes at least one
character, so length + 1 units suffice). -/
def tokenizeF : ℕ → List Char → Except PyErr (List Tok)
  | 0, _ => .error (.synError "invalid syntax")
  | _ + 1, [] => .ok []
  | fuel + 1, c :: r =>
    if isSpaceC c then tokenizeF fuel r
    else if isDigitC c || (c = '.' && isDigitC ((r.headD ' '))) then
      match lexNumber (c :: r) with
      | some (v, rest) => do
          let ts ← tokenizeF fuel rest
          .ok (Tok.num v :: ts)
      | none => .error (.synError "invalid decimal literal")
    else if isIdentStartC c then do
      let ts ← tokenizeF fuel (r.dropWhile isWordC)
      .ok (Tok.ident ⟨c :: r.takeWhile isWordC⟩ :: ts)
    else if c = '(' then do
      let ts ← tokenizeF fuel r
      .ok (Tok.lpar :: ts)
    else if c = ')' then do
      let ts ← tokenizeF fuel r
      .ok (Tok.rpar :: ts)
    else if c = ',' then do
      let ts ← tokenizeF fuel r
      .ok (Tok.comma :: ts)
    else if c = '*' then
      match r with
      | '*' :: r2 => do
          let ts ← tokenizeF fuel r2
          .ok (Tok.opT "**" :: ts)
      | _ => do
          let ts ← tokenizeF fuel r
          .ok (Tok.opT "*" :: ts)
    else if c = '/' then
      match r with
      | '/' :: r2 => do
          let ts ← tokenizeF fuel r2
          .ok (Tok.opT "//" :: ts)
      | _ => do
          let ts ← tokenizeF fuel r
          .ok (Tok.opT "/" :: ts)
    else if c = '<' then
      match r with
      | '<' :: r2 => do
          let ts ← tokenizeF fuel r2
          .ok (Tok.opT "<<" :: ts)
      | _ => .error (.synError "invalid syntax")
    else if c = '>' then
      match r with
      | '>' :: r2 => do
          let ts ← tokenizeF fuel r2
          .ok (Tok.opT ">>" :: ts)
      | _ => .error (.synError "invalid syntax")
    else if c = '+' || c = '-' || c = '%' || c = '~' || c = '^' || c = '|' || c = '&' then do
      let ts ← tokenizeF fuel r
      .ok (Tok.opT ⟨[c]⟩ :: ts)
    else .error (.synError "invalid syntax")

def binKOfOp (s : String) : BinK :=
  if s = "+" then .add else if s = "-" then .sub
  else if s = "*" then .mult else if s = "/" then .div
  else if s = "%" then .mod else if s = "//" then .floorDiv
  else if s = "|" then .bitOr else if s = "^" then .bitXor
  else if s = "&" then .bitAnd else if s = "<<" then .lshift
  else if s = ">>" then .rshift else .pow

/-- The binary operators of each precedence level, loosest first
(Python expression grammar, comparisons and boolean operators
excluded as unreachable from this program's inputs). -/
def levelOps : ℕ → List String
  | 0 => ["|"]
  | 1 => ["^"]
  | 2 => ["&"]
  | 3 => ["<<", ">>"]
  | 4 => ["+", "-"]
  | 5 => ["*", "/", "%", "//"]
  | _ => []

mutual

/-- Parse at precedence level lvl (0 loosest); level 6 is unary,
level 7 is power over atoms. -/
def parseE : ℕ → ℕ → List Tok → Except PyErr (Node × List Tok)
  | 0, _, _ => .error (.synError "invalid syntax")
  | fuel + 1, lvl, ts =>
    if lvl ≤ 5 then do
      let (l, ts1) ← parseE fuel (lvl + 1) ts
      parseChain fuel lvl l ts1
    else if lvl = 6 then
      match ts with
      | .opT "+" :: ts1 => do
          let (e, ts2) ← parseE fuel 6 ts1
          .ok (.unaryOp .uadd e, ts2)
      | .opT "-" :: ts1 => do
          let (e, ts2) ← parseE fuel 6 ts1
          .ok (.unaryOp .usub e, ts2)
      | .opT "~" :: ts1 => do
          let (e, ts2) ← parseE fuel 6 ts1
          .ok (.unaryOp .invert e, ts2)
      | _ => parseE fuel 7 ts
    else do
      let (a, ts1) ← parseAtom fuel ts
      match ts1 with
      | .opT "**" :: ts2 => do
          let (b, ts3) ← parseE fuel 6 ts2
          .ok (.binOp .pow a b, ts3)
      | _ => .ok (a, ts1)

/-- Left-associative chain of the operators of one level. -/
def parseChain : ℕ → ℕ → Node → List Tok → Except PyErr (Node × List Tok)
  | 0, _, _, _ => .error (.synError "invalid syntax")
  | fuel + 1, lvl, left, ts =>
    match ts with
    | .opT o :: ts1 =>
        if o ∈ levelOps lvl then do
          let (r, ts2) ← parseE fuel (lvl + 1) ts1
          parseChain fuel lvl (.binOp (binKOfOp o) left r) ts2
        else .ok (left, ts)
    | _ => .ok (left, ts)

/-- Atoms: literals, names, calls, parenthesised groups. -/
def parseAtom : ℕ → List Tok → Except PyErr (Node × List Tok)
  | 0, _ => .error (.synError "invalid syntax")
  | fuel + 1, ts =>
    match ts with
    | .num v :: ts1 => .ok (.constant v, ts1)
    | .ident f :: .lpar :: ts1 =>
        (match ts1 with
         | .rpar :: ts2 => .ok (.call (.nameN f) .nil, ts2)
         | _ => do
             let (args, ts2) ← parseArgs fuel ts1
             .ok (.call (.nameN f) args, ts2))
    | .ident f :: ts1 => .ok (.nameN f, ts1)
    | .lpar :: ts1 => do
        let (e, ts2) ← parseE fuel 0 ts1
        match ts2 with
        | .rpar :: ts3 => .ok (e, ts3)
        | _ => .error (.synError "invalid syntax")
    | _ => .error (.synError "invalid syntax")

/-- Comma-separated call arguments followed by the closing
parenthesis (a trailing comma is legal Python). -/
def parseArgs : ℕ → List Tok → Except PyErr (NodeList × List Tok)
  | 0, _ => .error (.synError "invalid syntax")
  | fuel + 1, ts => do
      let (e, ts1) ← parseE fuel 0 ts
      match ts1 with
      | .rpar :: ts2 => .ok (.cons e .nil, ts2)
      | .comma :: .rpar :: ts2 => .ok (.cons e .nil, ts2)
      | .comma :: ts2 => do
          let (rest, ts3) ← parseArgs fuel ts2
          .ok (.cons e rest, ts3)
      | _ => .error (.synError "invalid syntax")

end

/-- ast.parse(s, mode=eval) on the arithmetic fragment: tokenize,
parse one expression, reject trailing tokens. -/
def parseExprL (s : List Char) : Except PyErr Node := do
  let ts ← tokenizeF (s.length + 1) s
  match parseE ((ts.length + 2) * 8) 0 ts with
  | .ok (n, []) => .ok n
  | .ok (_, _ :: _) => .error (.synError "invalid syntax")
  | .error e => .error e

/-- str(e) of the modelled exceptions (the message payload). -/
def errStr : PyErr → String
  | .valueError m => m
  | .zeroDivisionError m => m
  | .typeError m => m
  | .synError m => m

/-- safe_eval of the source: preprocess, parse, evaluate, and wrap
any failure whatsoever into ValueError(Invalid expression: ...). -/
def safe_evalL (M : MathImpl) (expr : List Char) : Except PyErr PyVal :=
  match (parseExprL (preprocessL expr)).bind (evalNode M) with
  | .ok v => .ok v
  | .error e => .error (.valueError ("Invalid expression: " ++ errStr e))

def safe_eval (M : MathImpl) (expr : String) : Except PyErr PyVal :=
  safe_evalL M expr.data

/-! ## Result formatting and handle_expression -/

def trimZeros (l : List Char) : List Char := (l.reverse.dropWhile (fun c => c = '0')).reverse

/-- The decimal digits of the fractional part fr / 10^10, left-padded
to width 10, with trailing zeros removed. -/
def fracDigits (fr : ℕ) : String := ⟨trimZeros ((toString ((10 : ℕ) ^ 10 + fr)).data.drop 1)⟩

/-- The formatting block of handle_expression: a float with integral
value becomes an int; any other float is rounded to 10 decimal
places; the result is rendered with str (plain decimal notation; the
scientific notation Python switches to for huge magnitudes is outside
the model, as are such inputs). -/
def formatResult : PyVal → String
  | .intV n => toString n
  | .floatV q =>
      if q.den = 1 then toString q.num
      else
        let r := roundTo q 10
        let sgn := if r < 0 then "-" else ""
        let a := |r|
        let N := a.num.toNat * (10 ^ 10 / a.den)
        let ip := N / 10 ^ 10
        let fr := N % 10 ^ 10
        if fr = 0 then sgn ++ toString ip ++ ".0"
        else sgn ++ toString ip ++ "." ++ fracDigits fr

/-- handle_expression distilled to its semantic payload: None when
the classifier rejects; otherwise the formatted result, or the error
message of the reply branch that fires (the dedicated
ZeroDivisionError branch, the ValueError branch printing str(e), or
the catch-all).  The surrounding markdown decoration of the replies
is elided. -/
def handle (M : MathImpl) (text : String) : Option (Except String String) :=
  let expr := stripL text.data
  if ¬ is_math_expressionL expr then none
  else
    match safe_evalL M expr with
    | .ok v => some (.ok (formatResult v))
    | .error (.zeroDivisionError _) => some (.error "Division by zero is not allowed!")
    | .error (.valueError m) => some (.error m)
    | .error _ => some (.error "Invalid mathematical expression. Use /help for examples.")

/-! ## The allow-list boundary -/

/-- Membership of a binary operator in the allowed_ops dict. -/
def BinK.isAllowed : BinK → Bool
  | .add | .sub | .mult | .div | .pow | .mod => true
  | _ => false

def UnK.isAllowed : UnK → Bool
  | .usub | .uadd => true
  | .invert => false

theorem allowedBinOp_isSome (M : MathImpl) (op : BinK) :
    (allowedBinOp M op).isSome = op.isAllowed := by
  cases op <;> rfl

theorem allowedUnOp_isSome (op : UnK) :
    (allowedUnOp op).isSome = op.isAllowed := by
  cases op <;> rfl

/- A syntax tree built exclusively from allow-listed material: every
name is an allow-listed constant, every operator an allow-listed
operator, every call target a Name naming an allow-listed function,
and every node one of the five handled node kinds. -/
mutual
def allowedNode : Node → Bool
  | .constant _ => true
  | .nameN id => id = "pi" || id = "e"
  | .binOp op l r => op.isAllowed && allowedNode l && allowedNode r
  | .unaryOp op e => op.isAllowed && allowedNode e
  | .call (.nameN f) args => decide (f ∈ allowedFunctionNames) && allowedArgs args
  | .call _ _ => false
  | .attrN _ _ => false
  | .otherNode _ => false
def allowedArgs : NodeList → Bool
  | .nil => true
  | .cons a rest => allowedNode a && allowedArgs rest
end

/-- Evaluation succeeds only on trees drawn entirely from the
allow-lists: any disallowed name, operator, call target, or foreign
node kind forces an error somewhere, so a successful value certifies
the whole tree.  Joint induction following the evaluator. -/
theorem evalNode_ok_allowed (M : MathImpl) :
    ∀ n : Node, (∀ v, evalNode M n = .ok v → allowedNode n = true) :=
  evalNode.induct M
    (fun n => ∀ v, evalNode M n = .ok v → allowedNode n = true)
    (fun args => ∀ vs, evalArgs M args = .ok vs → allowedArgs args = true)
    (fun _ _ _ => rfl)
    (fun _ _ => by decide)
    (fun _ _ _ => by decide)
    (by
      intro id hpi he v hv
      simp only [evalNode, if_neg hpi, if_neg he] at hv
      cases hv)
    (by
      intro op l r ihl ihr v hv
      simp only [evalNode] at hv
      obtain ⟨lv, hl, hv2⟩ := exceptBind_eq_ok hv
      obtain ⟨rv, hr, hv3⟩ := exceptBind_eq_ok hv2
      cases hop : allowedBinOp M op with
      | none => rw [hop] at hv3; exact absurd hv3 (by simp)
      | some f =>
        have hall : op.isAllowed = true := by
          rw [← allowedBinOp_isSome M op, hop]; rfl
        simp only [allowedNode, hall, ihl lv hl, ihr rv hr]
        rfl)
    (by
      intro op e ih v hv
      simp only [evalNode] at hv
      obtain ⟨ev, he, hv2⟩ := exceptBind_eq_ok hv
      cases hop : allowedUnOp op with
      | none => rw [hop] at hv2; exact absurd hv2 (by simp)
      | some f =>
        have hall : op.isAllowed = true := by
          rw [← allowedUnOp_isSome op, hop]; rfl
        simp only [allowedNode, hall, ih ev he]
        rfl)
    (by
      intro args f hf ih v hv
      simp only [evalNode, if_pos hf] at hv
      obtain ⟨vs, ha, _⟩ := exceptBind_eq_ok hv
      simp only [allowedNode, ih vs ha, decide_eq_true hf]
      rfl)
    (by
      intro args f hf v hv
      simp only [evalNode, if_neg hf] at hv
      cases hv)
    (by
      intro fn args hne v hv
      cases fn with
      | nameN f => exact (hne f rfl).elim
      | constant _ => simp only [evalNode] at hv; cases hv
      | binOp op l r => simp only [evalNode] at hv; cases hv
      | unaryOp op e => simp only [evalNode] at hv; cases hv
      | call g as => simp only [evalNode] at hv; cases hv
      | attrN o fl => simp only [evalNode] at hv; cases hv
      | otherNode k => simp only [evalNode] at hv; cases hv)
    (by intro obj field v hv; simp only [evalNode] at hv; cases hv)
    (by intro kind v hv; simp only [evalNode] at hv; cases hv)
    (fun _ _ => rfl)
    (by
      intro a rest iha ihr vs hv
      simp only [evalArgs] at hv
      obtain ⟨v, ha, hv2⟩ := exceptBind_eq_ok hv
      obtain ⟨vrest, hr, _⟩ := exceptBind_eq_ok hv2
      simp only [allowedArgs, iha v ha, ihr vrest hr]
      rfl)

/-- C1: evaluation reaches allow-listed material only.  (a) A
successful eval_node run certifies that every identifier, operator,
and call target in the tree is allow-listed and every node belongs to
the closed node set — so a disallowed element anywhere means eval_node
raised instead of executing.  (b) A call whose target is an attribute
access such as os.system is rejected no matter what its argument is,
without evaluating that argument.  (c) handle("os.system('rm -rf /')")
is already rejected by the classifier and returns None. -/
theorem c1_allowlist_security :
    (∀ (M : MathImpl) (n : Node) (v : PyVal),
        evalNode M n = .ok v → allowedNode n = true) ∧
    (∀ (M : MathImpl) (arg : Node),
        evalNode M (.call (.attrN (.nameN "os") "system") (.cons arg .nil)) =
          .error (.valueError "Function \x27unknown\x27 not allowed")) ∧
    (∀ M : MathImpl, handle M "os.system(\x27rm -rf /\x27)" = none) :=
  ⟨fun M n v h => evalNode_ok_allowed M n v h,
   fun _ _ => rfl,
   fun _ => rfl⟩

/-- Witness for c1_allowlist_security: its universally quantified
parts applied at concrete inputs, hypotheses discharged by rfl. -/
theorem c1_allowlist_security_witness :
    allowedNode (.constant (.intV 3)) = true ∧
    evalNode defaultMath
        (.call (.attrN (.nameN "os") "system") (.cons (.constant (.intV 0)) .nil)) =
      .error (.valueError "Function \x27unknown\x27 not allowed") ∧
    handle defaultMath "os.system(\x27rm -rf /\x27)" = none :=
  ⟨c1_allowlist_security.1 defaultMath (.constant (.intV 3)) (.intV 3) rfl,
   c1_allowlist_security.2.1 defaultMath (.constant (.intV 0)),
   c1_allowlist_security.2.2 defaultMath⟩

/-- C2 (code behaviour at the failing input): handle("1/0") fires the
generic ValueError reply branch with message Invalid expression:
division by zero — not the dedicated division-by-zero reply — because
safe_eval's catch-all collapses the ZeroDivisionError before
handle_expression's dedicated handler can see it. -/
theorem c2_div_by_zero_behaviour :
    handle defaultMath "1/0" =
      some (.error "Invalid expression: division by zero") := by
  rfl

/-- Whatever safe_eval returns, an error out of it is a ValueError
whose message starts with the catch-all prefix. -/
theorem safe_evalL_cases (M : MathImpl) (l : List Char) :
    (∃ v, safe_evalL M l = .ok v) ∨
    (∃ m, safe_evalL M l = .error (.valueError ("Invalid expression: " ++ m))) := by
  cases h : (parseExprL (preprocessL l)).bind (evalNode M) with
  | ok v => exact Or.inl ⟨v, by unfold safe_evalL; rw [h]⟩
  | error e => exact Or.inr ⟨errStr e, by unfold safe_evalL; rw [h]⟩

/-- A string with the catch-all prefix is never the dedicated
division-by-zero reply. -/
theorem invalid_prefix_ne_div (m : String) :
    "Invalid expression: " ++ m ≠ "Division by zero is not allowed!" := by
  obtain ⟨ml⟩ := m
  intro h
  have h2 : "Invalid expression: ".data ++ ml = "Division by zero is not allowed!".data :=
    congrArg String.data h
  have h3 := congrArg List.head? h2
  simp at h3

/-- C9: safe_eval either returns a value or fails with a ValueError
whose message begins with Invalid expression: — no other exception
kind escapes it, because the catch-all wraps every failure; as a
consequence the dedicated ZeroDivisionError reply branch of
handle_expression can never fire, for any input whatsoever. -/
theorem c9_safe_eval_catch_all :
    (∀ (M : MathImpl) (expr : String),
        (∃ v, safe_eval M expr = .ok v) ∨
        (∃ m, safe_eval M expr = .error (.valueError ("Invalid expression: " ++ m)))) ∧
    (∀ (M : MathImpl) (text : String),
        handle M text ≠ some (.error "Division by zero is not allowed!")) := by
  constructor
  · intro M expr
    exact safe_evalL_cases M expr.data
  · intro M text h
    unfold handle at h
    dsimp only at h
    split_ifs at h with hc
    rcases safe_evalL_cases M (stripL text.data) with ⟨v, hv⟩ | ⟨m, hm⟩
    · rw [hv] at h
      simp at h
    · rw [hm] at h
      simp only [Option.some.injEq, Except.error.injEq] at h
      exact invalid_prefix_ne_div m h

/-- C4 counterexample: a wrong-arity call does not produce any
distinct classified arity error — sin with two arguments comes back
as the same generic Invalid expression: ValueError shape as every
other failure (the TypeError of the Python call is swallowed by
safe_eval's catch-all; the code has no ArityError anywhere). -/
theorem c4_no_distinct_arity_error :
    safe_eval defaultMath "sin(1, 2)" =
      .error (.valueError "Invalid expression: sin() takes exactly one argument (2 given)") ∧
    safe_eval defaultMath "foo(1)" =
      .error (.valueError "Invalid expression: Function \x27foo\x27 not allowed") := by
  exact ⟨rfl, rfl⟩

/-- C4 amended: arguments are evaluated first, left to right (the
first failing argument's error propagates and the call is applied
only to fully evaluated arguments); a call whose argument count does
not fit the resolved function raises a plain TypeError, which
safe_eval then folds into the generic Invalid expression ValueError
rather than a distinct classified arity error. -/
theorem c4_arity_amended :
    (∀ (M : MathImpl) (a : Node) (rest : NodeList) (e : PyErr),
        evalNode M a = .error e → evalArgs M (.cons a rest) = .error e) ∧
    (∀ (M : MathImpl) (f : String) (args : NodeList) (vals : List PyVal),
        f ∈ allowedFunctionNames → evalArgs M args = .ok vals →
        evalNode M (.call (.nameN f) args) = applyFunc M f vals) ∧
    (∀ (M : MathImpl) (x y : PyVal),
        applyFunc M "sin" [x, y] =
          .error (.typeError "sin() takes exactly one argument (2 given)")) ∧
    (∀ (M : MathImpl) (x : PyVal),
        applyFunc M "pow" [x] =
          .error (.typeError "pow expected 2 or 3 arguments, got 1")) ∧
    (∀ (M : MathImpl) (l : List Char) (msg : String),
        (parseExprL (preprocessL l)).bind (evalNode M) = .error (.typeError msg) →
        safe_evalL M l = .error (.valueError ("Invalid expression: " ++ msg))) := by
  refine ⟨?_, ?_, ?_, ?_, ?_⟩
  · intro M a rest e he
    simp only [evalArgs, he]
    rfl
  · intro M f args vals hf hargs
    simp only [evalNode, if_pos hf, hargs]
    rfl
  · intro M x y
    simp [applyFunc, oneArgQ]
    rfl
  · intro M x
    simp [applyFunc, pyPowFn]
    rfl
  · intro M l msg h
    unfold safe_evalL
    rw [h]
    rfl

/-- Witness for c4_arity_amended: the quantified parts applied at
concrete inputs with their hypotheses discharged. -/
theorem c4_arity_amended_witness :
    evalArgs defaultMath (.cons (.nameN "nope") .nil) =
      .error (.valueError "Name \x27nope\x27 not allowed") ∧
    evalNode defaultMath (.call (.nameN "sin")
        (.cons (.constant (.intV 1)) (.cons (.constant (.intV 2)) .nil))) =
      applyFunc defaultMath "sin" [.intV 1, .intV 2] ∧
    safe_evalL defaultMath "sin(1, 2)".data =
      .error (.valueError ("Invalid expression: " ++ "sin() takes exactly one argument (2 given)")) :=
  ⟨c4_arity_amended.1 defaultMath (.nameN "nope") .nil _ rfl,
   c4_arity_amended.2.1 defaultMath "sin"
     (.cons (.constant (.intV 1)) (.cons (.constant (.intV 2)) .nil)) [.intV 1, .intV 2]
     (by decide) rfl,
   c4_arity_amended.2.2.2.2 defaultMath "sin(1, 2)".data
     "sin() takes exactly one argument (2 given)" rfl⟩

/-- C5: the prose-embedded-arithmetic patterns veto eligibility — any
text matching letter ws digits op digits (or its mirror image) is
classified ineligible, so the prose message gets no reply, while the
standalone arithmetic 24*7 stays eligible. -/
theorem c5_prose_rejection :
    (∀ s : List Char, (scanAny p1At s || scanAny p2At s) = true →
        is_math_expressionL s = false) ∧
    (∀ M : MathImpl, handle M "I will be available 24*7" = none) ∧
    is_math_expression "24*7" = true := by
  refine ⟨?_, fun _ => rfl, rfl⟩
  intro s h
  unfold is_math_expressionL
  split_ifs with h1 h2 h3 <;> first | rfl | exact absurd h (by rw [h3]; simp)

/-- Witness for c5_prose_rejection: the general veto applied to the
concrete prose message, hypothesis discharged by computation. -/
theorem c5_prose_rejection_witness :
    is_math_expressionL "I will be available 24*7".data = false ∧
    handle defaultMath "I will be available 24*7" = none :=
  ⟨c5_prose_rejection.1 "I will be available 24*7".data rfl,
   c5_prose_rejection.2.1 defaultMath⟩

/-- C6: handle(2**3): the classifier accepts via the power-operator
pattern, the preprocessor rewrites the infix to pow(2, 3), evaluation
gives the int 8, and the formatter renders 8 — for every MathImpl,
since no libm function is involved. -/
theorem c6_power_end_to_end :
    ∀ M : MathImpl,
      handle M "2**3" = some (.ok "8") ∧
      preprocess_expression "2**3" = "pow(2, 3)" :=
  fun _ => ⟨rfl, rfl⟩

/-! ## Case-substitutions only change case -/

theorem mapLower_append (a b : List Char) :
    mapLower (a ++ b) = mapLower a ++ mapLower b := by
  simp [mapLower]

/-- A case-insensitive substitution of a lowercase literal changes
only letter case: the lowercased text is untouched. -/
theorem mapLower_caseSub (f : List Char) (hf : f ≠ []) (hlow : mapLower f = f) :
    ∀ s, mapLower (caseSub f s) = mapLower s := by
  have H : ∀ n (s : List Char), s.length ≤ n → mapLower (caseSub f s) = mapLower s := by
    intro n
    induction n with
    | zero =>
      intro s hs
      rw [List.length_eq_zero.mp (Nat.le_zero.mp hs)]
      rfl
    | succ k ih =>
      intro s hs
      cases s with
      | nil => rfl
      | cons c r =>
        rw [caseSub_cons]
        split_ifs with hp
        · have hdrop : (List.drop (f.length - 1) r).length ≤ k := by
            have h1 := List.length_drop (f.length - 1) r
            simp only [List.length_cons] at hs
            omega
          rw [mapLower_append, ih _ hdrop, hlow]
          conv_rhs =>
            rw [show (c :: r) = (c :: r.take (f.length - 1)) ++ r.drop (f.length - 1) from by
              rw [List.cons_append, List.take_append_drop]]
          rw [mapLower_append, window_mapLower f hf hp]
        · have hr : r.length ≤ k := by
            simp only [List.length_cons] at hs
            omega
          show lowerC c :: mapLower (caseSub f r) = lowerC c :: mapLower r
          rw [ih r hr]
  exact fun s => H s.length s le_rfl

/-- Same for the whole-word constant substitution, any previous-word
state. -/
theorem mapLower_wordSub (f : List Char) (hf : f ≠ []) (hlow : mapLower f = f) :
    ∀ (s : List Char) (p : Bool), mapLower (wordSub f p s) = mapLower s := by
  have H : ∀ n (s : List Char) (p : Bool), s.length ≤ n →
      mapLower (wordSub f p s) = mapLower s := by
    intro n
    induction n with
    | zero =>
      intro s p hs
      rw [List.length_eq_zero.mp (Nat.le_zero.mp hs)]
      rfl
    | succ k ih =>
      intro s p hs
      cases s with
      | nil => rfl
      | cons c r =>
        rw [wordSub_cons f hf]
        split_ifs with hp
        · have hpre : isPrefixCI f (c :: r) = true := by
            simp only [Bool.and_eq_true] at hp
            exact hp.1.2
          have hdrop : (List.drop (f.length - 1) r).length ≤ k := by
            have h1 := List.length_drop (f.length - 1) r
            simp only [List.length_cons] at hs
            omega
          rw [mapLower_append, ih _ _ hdrop, hlow]
          conv_rhs =>
            rw [show (c :: r) = (c :: r.take (f.length - 1)) ++ r.drop (f.length - 1) from by
              rw [List.cons_append, List.take_append_drop]]
          rw [mapLower_append, window_mapLower f hf hpre]
        · have hr : r.length ≤ k := by
            simp only [List.length_cons] at hs
            omega
          show lowerC c :: mapLower (wordSub f (isWordC c) r) = lowerC c :: mapLower r
          rw [ih r _ hr]
  exact fun s p => H s.length s p le_rfl

/-- The whole function-name fold pass changes only case. -/
theorem mapLower_foldNames (L : List (List Char))
    (hL : ∀ f ∈ L, f ≠ [] ∧ mapLower f = f) :
    ∀ s, mapLower (L.foldl (fun acc f => caseSub f acc) s) = mapLower s := by
  induction L with
  | nil => intro s; rfl
  | cons f L ih =>
    intro s
    have hf := hL f (List.mem_cons_self f L)
    rw [List.foldl_cons, ih (fun g hg => hL g (List.mem_cons_of_mem f hg)),
      mapLower_caseSub f hf.1 hf.2]

theorem preprocessorFunctionNames_sane :
    ∀ f ∈ preprocessorFunctionNames.map String.data, f ≠ [] ∧ mapLower f = f := by
  decide

theorem mapLower_caseFoldFunctions (s : List Char) :
    mapLower (caseFoldFunctions s) = mapLower s :=
  mapLower_foldNames _ preprocessorFunctionNames_sane s

/-- C3 counterexample: the function-name case fold is a raw substring
substitution, not a whole-identifier one — the EXP inside EXPO is
folded, giving expO instead of leaving EXPO unchanged. -/
theorem c3_substring_fold_counterexample :
    preprocess_expression "EXPO" = "expO" ∧ preprocess_expression "EXPO" ≠ "EXPO" := by
  exact ⟨rfl, by decide⟩

/-- C3 amended: whole-identifier occurrences of function names do
case-fold (SIN, Sin, sIn all become sin), and the constants pi and e
are matched as whole words only (Pi becomes pi, PIE is untouched);
but function names are matched as raw substrings, so a name embedded
in a longer identifier is folded too (EXPO becomes expO).  In every
case the substitutions change letter case only: the lowercased text
of the case-folding passes is preserved. -/
theorem c3_case_fold_amended :
    preprocess_expression "SIN" = "sin" ∧
    preprocess_expression "Sin" = "sin" ∧
    preprocess_expression "sIn" = "sin" ∧
    preprocess_expression "Pi" = "pi" ∧
    preprocess_expression "PIE" = "PIE" ∧
    preprocess_expression "EXPO" = "expO" ∧
    (∀ s : List Char,
      mapLower (wordSub "e".data false (wordSub "pi".data false (caseFoldFunctions s))) =
        mapLower s) := by
  refine ⟨rfl, rfl, rfl, rfl, rfl, rfl, ?_⟩
  intro s
  rw [mapLower_wordSub "e".data (by decide) (by decide),
    mapLower_wordSub "pi".data (by decide) (by decide),
    mapLower_caseFoldFunctions]

/-- Witness for c3_case_fold_amended: the general conjunct applied at
a concrete string. -/
theorem c3_case_fold_amended_witness :
    mapLower (wordSub "e".data false (wordSub "pi".data false
        (caseFoldFunctions "EXPO".data))) = mapLower "EXPO".data :=
  c3_case_fold_amended.2.2.2.2.2.2 "EXPO".data

/-! ## The result formatter -/

/-- Round-half-to-even lands within one half of the input. -/
theorem bankersZ_close (q : ℚ) : |(bankersZ q : ℚ) - q| ≤ 1 / 2 := by
  unfold bankersZ
  dsimp only
  have h0 : (0 : ℚ) ≤ q - ⌊q⌋ := by
    have := Int.floor_le q
    linarith
  have h1 : q - ⌊q⌋ < 1 := by
    have := Int.lt_floor_add_one q
    linarith
  split_ifs with hr hr2 hev <;>
    (rw [abs_le]; constructor <;> push_cast <;> linarith)

/-- Rounding to 10 decimal places moves the value by at most half of
the last retained decimal place. -/
theorem roundTo_close (q : ℚ) : |roundTo q 10 - q| ≤ 1 / (2 * 10 ^ 10) := by
  unfold roundTo
  have hne : (10 : ℚ) ^ (10 : ℤ) ≠ 0 := by positivity
  have key : (bankersZ (q * (10 : ℚ) ^ (10 : ℤ)) : ℚ) * (10 : ℚ) ^ (-(10 : ℤ)) - q =
      ((bankersZ (q * (10 : ℚ) ^ (10 : ℤ)) : ℚ) - q * (10 : ℚ) ^ (10 : ℤ)) *
        (10 : ℚ) ^ (-(10 : ℤ)) := by
    rw [sub_mul]
    congr 1
    rw [mul_assoc, ← zpow_add₀ (by norm_num : (10 : ℚ) ≠ 0)]
    norm_num
  rw [key, abs_mul]
  have habs : |(10 : ℚ) ^ (-(10 : ℤ))| = (10 : ℚ) ^ (-(10 : ℤ)) := by
    rw [abs_of_pos]
    positivity
  rw [habs]
  have hb := bankersZ_close (q * (10 : ℚ) ^ (10 : ℤ))
  have hmul := mul_le_mul_of_nonneg_right hb
    (le_of_lt (by positivity : (0 : ℚ) < (10 : ℚ) ^ (-(10 : ℤ))))
  refine le_trans hmul (le_of_eq ?_)
  have h2 : ((10 : ℚ) ^ (-(10 : ℤ))) = ((10 : ℚ) ^ (10 : ℕ))⁻¹ := by
    rw [zpow_neg]
    norm_num
  rw [h2]
  norm_num

/-- C7: the formatter: a float that is mathematically an integer is
rendered as the integer's digits (no decimal point), any other float
is rounded to 10 decimal places before rendering (the rounding moves
the value by at most 5e-11), so 0.1 + 0.2 renders as 0.3, a float 1.0
(e.g. from 1/1, or sin(pi/2) given the libm value sin(pi/2) = 1.0)
renders as 1. -/
theorem c7_formatter :
    (∀ q : ℚ, q.den = 1 → formatResult (.floatV q) = toString q.num) ∧
    (∀ q : ℚ, |roundTo q 10 - q| ≤ 1 / (2 * 10 ^ 10)) ∧
    (∀ M : MathImpl, handle M "0.1 + 0.2" = some (.ok "0.3")) ∧
    (∀ M : MathImpl, handle M "1/1" = some (.ok "1")) ∧
    (∀ M : MathImpl, M.sinQ (piF / 2) = .ok 1 → handle M "sin(pi/2)" = some (.ok "1")) := by
  refine ⟨?_, roundTo_close, fun _ => rfl, fun _ => rfl, ?_⟩
  · intro q hq
    simp only [formatResult]
    rw [if_pos hq]
  · intro M h
    have hval : evalNode M (.call (.nameN "sin")
        (.cons (.binOp .div (.nameN "pi") (.constant (.intV 2))) .nil)) =
        .ok (.floatV 1) := by
      have harg : evalArgs M
          (.cons (.binOp .div (.nameN "pi") (.constant (.intV 2))) .nil) =
          .ok [.floatV (piF / 2)] := by
        show Except.ok [PyVal.floatV (piF / ((2 : ℤ) : ℚ))] = _
        norm_num
      rw [show evalNode M (.call (.nameN "sin")
            (.cons (.binOp .div (.nameN "pi") (.constant (.intV 2))) .nil)) =
          (evalArgs M (.cons (.binOp .div (.nameN "pi") (.constant (.intV 2))) .nil)).bind
            (applyFunc M "sin") from rfl]
      rw [harg]
      show (M.sinQ (toQ (.floatV (piF / 2)))).map PyVal.floatV = _
      rw [show toQ (.floatV (piF / 2)) = piF / 2 from rfl, h]
      rfl
    have hse : safe_evalL M "sin(pi/2)".data = .ok (.floatV 1) := by
      unfold safe_evalL
      rw [show (parseExprL (preprocessL "sin(pi/2)".data)).bind (evalNode M) =
          evalNode M (.call (.nameN "sin")
            (.cons (.binOp .div (.nameN "pi") (.constant (.intV 2))) .nil)) from rfl]
      rw [hval]
    unfold handle
    dsimp only
    rw [if_neg (by decide :
      ¬¬is_math_expressionL (stripL "sin(pi/2)".data) = true)]
    rw [show stripL "sin(pi/2)".data = "sin(pi/2)".data from rfl, hse]
    rfl

/-- Witness for c7_formatter: the quantified parts at concrete
inputs, hypotheses discharged by computation (defaultMath agrees with
the libm value sin(pi/2) = 1.0). -/
theorem c7_formatter_witness :
    formatResult (.floatV 5) = "5" ∧
    handle defaultMath "sin(pi/2)" = some (.ok "1") :=
  ⟨c7_formatter.1 5 rfl,
   c7_formatter.2.2.2.2 defaultMath (by rw [show defaultMath.sinQ (piF / 2) =
      .ok (if piF / 2 = piF / 2 then 1 else 0) from rfl, if_pos rfl])⟩

/-! ## Termination of the power-rewrite loop -/

/-- The first character is a star. -/
def headStar : List Char → Bool
  | [] => false
  | c :: _ => c = '*'

/-- The last character is a star. -/
def lastStar (l : List Char) : Bool :=
  match l.getLast? with
  | some c => decide (c = '*')
  | none => false

theorem headStar_append (x y : List Char) :
    headStar (x ++ y) = if x.isEmpty then headStar y else headStar x := by
  cases x <;> rfl

theorem lastStar_cons (c : Char) (l : List Char) :
    lastStar (c :: l) = if l.isEmpty then decide (c = '*') else lastStar l := by
  cases l with
  | nil => rfl
  | cons d u => simp only [lastStar, List.getLast?_cons_cons, List.isEmpty_cons, if_neg]; rfl

theorem lastStar_false_of_all {l : List Char} (h : ∀ x ∈ l, ¬x = '*') :
    lastStar l = false := by
  induction l with
  | nil => rfl
  | cons c r ih =>
    rw [lastStar_cons]
    split_ifs with he
    · simpa using h c (List.mem_cons_self c r)
    · exact ih (fun x hx => h x (List.mem_cons_of_mem c hx))

theorem countPow_cons (c : Char) (l : List Char) :
    countPow (c :: l) = (if c = '*' && headStar l then 1 else 0) + countPow l := by
  cases l with
  | nil => simp [countPow, countPowAux, headStar]
  | cons d r =>
    show countPowAux c (d :: r) = _
    rw [countPowAux]
    rfl

theorem countPow_zero_of_no_star {l : List Char} (h : ∀ x ∈ l, ¬x = '*') :
    countPow l = 0 := by
  induction l with
  | nil => rfl
  | cons c r ih =>
    rw [countPow_cons]
    have hc : ¬(c = '*') := h c (List.mem_cons_self c r)
    have hcond : (decide (c = '*') && headStar r) = false := by simp [hc]
    rw [hcond]
    simpa using ih (fun x hx => h x (List.mem_cons_of_mem c hx))

theorem countPow_append_right {y : List Char} (hy : headStar y = false) :
    ∀ x, countPow (x ++ y) = countPow x + countPow y := by
  intro x
  induction x with
  | nil => simp [countPow]
  | cons c x' ih =>
    rw [List.cons_append, countPow_cons, ih, countPow_cons]
    have hh : headStar (x' ++ y) = headStar x' := by
      cases x' with
      | nil => simpa using hy
      | cons d u => rfl
    rw [hh]
    omega

theorem countPow_append_left {x : List Char} (hx : lastStar x = false) (y : List Char) :
    countPow (x ++ y) = countPow x + countPow y := by
  induction x with
  | nil => simp [countPow]
  | cons c x' ih =>
    rw [lastStar_cons] at hx
    cases x' with
    | nil =>
      simp at hx
      rw [List.cons_append, List.nil_append, countPow_cons]
      simp [hx, countPow, countPowAux]
    | cons d u =>
      simp at hx
      rw [List.cons_append, countPow_cons, ih hx, countPow_cons]
      have hh : headStar ((d :: u) ++ y) = headStar (d :: u) := rfl
      rw [hh]
      conv_rhs => rw [countPow_cons, countPow_cons]
      omega

theorem ne_star_of_wordC {c : Char} (h : isWordC c = true) : ¬c = '*' := by
  intro he; subst he; exact absurd h (by decide)

theorem ne_star_of_digitC {c : Char} (h : isDigitC c = true) : ¬c = '*' := by
  intro he; subst he; exact absurd h (by decide)

theorem ne_star_of_spaceC {c : Char} (h : isSpaceC c = true) : ¬c = '*' := by
  intro he; subst he; exact absurd h (by decide)

theorem ne_star_of_identStartC {c : Char} (h : isIdentStartC c = true) : ¬c = '*' := by
  intro he; subst he; exact absurd h (by decide)

theorem headStar_false_of_all {l : List Char} (h : ∀ x ∈ l, ¬x = '*') :
    headStar l = false := by
  cases l with
  | nil => rfl
  | cons c r =>
    show decide (c = '*') = false
    simp [h c (List.mem_cons_self c r)]

/-- Every character of a number-tail operand is a digit or the dot. -/
theorem numberTail_chars (r : List Char) :
    ∀ x ∈ (numberTail r).1, isDigitC x = true ∨ x = '.' := by
  unfold numberTail
  dsimp only
  split
  · split_ifs
    · intro x hx
      exact Or.inl (List.mem_takeWhile_imp hx)
    · intro x hx
      rcases List.mem_append.mp hx with hm | hm
      · exact Or.inl (List.mem_takeWhile_imp hm)
      · rcases List.mem_cons.mp hm with he | hm2
        · exact Or.inr he
        · exact Or.inl (List.mem_takeWhile_imp hm2)
  · intro x hx
    exact Or.inl (List.mem_takeWhile_imp hx)

/-- An operand neither starts nor ends with a star. -/
theorem operandAt_shape {s a rest : List Char} (h : operandAt s = some (a, rest)) :
    headStar a = false ∧ lastStar a = false := by
  cases s with
  | nil => simp [operandAt] at h
  | cons c r =>
    simp only [operandAt] at h
    split_ifs at h with h1 h2 h3
    · cases h
      refine ⟨?_, ?_⟩
      · show decide (c = '*') = false
        simp [ne_star_of_identStartC h1]
      · apply lastStar_false_of_all
        intro x hx
        rcases List.mem_cons.mp hx with he | hm
        · subst he; exact ne_star_of_identStartC h1
        · exact ne_star_of_wordC (List.mem_takeWhile_imp hm)
    · cases h
      refine ⟨?_, ?_⟩
      · show decide (c = '*') = false
        simp [ne_star_of_digitC h2]
      · apply lastStar_false_of_all
        intro x hx
        rcases List.mem_cons.mp hx with he | hm
        · subst he; exact ne_star_of_digitC h2
        · rcases numberTail_chars r x hm with hd | hdot
          · exact ne_star_of_digitC hd
          · subst hdot; decide
    · obtain ⟨hr, hne, inner, ha⟩ := parenAt_decomp h
      subst ha
      refine ⟨rfl, ?_⟩
      rw [lastStar_cons]
      have hne2 : (inner ++ [')']).isEmpty = false := by
        simp
      rw [hne2]
      simp only [Bool.false_eq_true, if_neg]
      unfold lastStar
      rw [List.getLast?_concat]
      rfl

/-- Full shape of a power-pattern match. -/
theorem matchPowAt_decomp {s a b rest : List Char} (h : matchPowAt s = some (a, b, rest)) :
    ∃ w1 w2, s = a ++ (w1 ++ '*' :: '*' :: (w2 ++ (b ++ rest))) ∧
      (∀ x ∈ w1, isSpaceC x = true) ∧ (∀ x ∈ w2, isSpaceC x = true) ∧
      a ≠ [] ∧ b ≠ [] ∧ headStar a = false ∧ lastStar a = false ∧
      headStar b = false ∧ lastStar b = false := by
  obtain ⟨r1, r3, heq1, heq2, heq3⟩ := matchPowAt_parts h
  obtain ⟨hs1, ha1⟩ := operandAt_decomp heq1
  obtain ⟨hs2, hb1⟩ := operandAt_decomp heq3
  obtain ⟨ha2, ha3⟩ := operandAt_shape heq1
  obtain ⟨hb2, hb3⟩ := operandAt_shape heq3
  refine ⟨r1.takeWhile isSpaceC, r3.takeWhile isSpaceC, ?_,
    fun x hx => List.mem_takeWhile_imp hx, fun x hx => List.mem_takeWhile_imp hx,
    ha1, hb1, ha2, ha3, hb2, hb3⟩
  calc s = a ++ r1 := hs1
    _ = a ++ (r1.takeWhile isSpaceC ++ r1.dropWhile isSpaceC) := by
          rw [List.takeWhile_append_dropWhile]
    _ = a ++ (r1.takeWhile isSpaceC ++ ('*' :: '*' :: r3)) := by rw [heq2]
    _ = a ++ (r1.takeWhile isSpaceC ++
          ('*' :: '*' :: (r3.takeWhile isSpaceC ++ r3.dropWhile isSpaceC))) := by
          rw [List.takeWhile_append_dropWhile]
    _ = a ++ (r1.takeWhile isSpaceC ++
          ('*' :: '*' :: (r3.takeWhile isSpaceC ++ (b ++ rest)))) := by rw [hs2]

/-- The re-scan recursion shape of powRound. -/
theorem powRound_cons (c : Char) (r : List Char) :
    powRound (c :: r) =
      match matchPowAt (c :: r) with
      | some (a, b, rest) => mkRepl a b ++ powRound rest
      | none => c :: powRound r := by
  show powRoundA 0 (c :: r) = _
  cases h : matchPowAt (c :: r) with
  | none =>
    rw [powRoundA, h]
    rfl
  | some abr =>
    obtain ⟨a, b, rest⟩ := abr
    rw [powRoundA, h]
    dsimp only
    congr 1
    rw [powRoundA_skip]
    obtain ⟨w1, w2, hseq, _, _, ha1, _, _, _, _, _⟩ := matchPowAt_decomp h
    have hm : c :: r = (a ++ (w1 ++ '*' :: '*' :: (w2 ++ b))) ++ rest := by
      rw [hseq]
      simp [List.append_assoc]
    have hmne : a ++ (w1 ++ '*' :: '*' :: (w2 ++ b)) ≠ [] := by
      cases a with
      | nil => exact absurd rfl ha1
      | cons x xs => simp
    cases hmm : a ++ (w1 ++ '*' :: '*' :: (w2 ++ b)) with
    | nil => exact absurd hmm hmne
    | cons x m' =>
      rw [hmm, List.cons_append] at hm
      injection hm with hx hr
      have hlen : (c :: r).length - rest.length - 1 = m'.length := by
        rw [List.length_cons, hr, List.length_append]
        omega
      rw [hlen, hr, List.drop_left]
      rfl

/-- The replacement pow(A, B) carries over exactly the stars inside A
and B: its glue characters create no new star pair. -/
theorem countPow_mkRepl_append (a b X : List Char)
    (ha3 : lastStar a = false) (hb3 : lastStar b = false) :
    countPow (mkRepl a b ++ X) = countPow a + (countPow b + countPow X) := by
  unfold mkRepl
  rw [List.cons_append, List.cons_append, List.cons_append, List.cons_append]
  rw [countPow_cons, countPow_cons, countPow_cons, countPow_cons]
  rw [List.append_assoc]
  rw [countPow_append_left ha3]
  rw [List.cons_append, List.cons_append]
  rw [countPow_cons, countPow_cons]
  rw [List.append_assoc]
  rw [countPow_append_left hb3]
  rw [show ([')'] : List Char) ++ X = ')' :: X from rfl, countPow_cons]
  simp

/-- One pass never turns a non-star head into a star head. -/
theorem headStar_powRound (r : List Char) : headStar (powRound r) = headStar r := by
  cases r with
  | nil => rfl
  | cons c t =>
    rw [powRound_cons]
    cases h : matchPowAt (c :: t) with
    | none => rfl
    | some abr =>
      obtain ⟨a, b, rest⟩ := abr
      obtain ⟨w1, w2, hseq, _, _, ha1, _, ha2, _, _, _⟩ := matchPowAt_decomp h
      have hc : ¬c = '*' := by
        cases a with
        | nil => exact absurd rfl ha1
        | cons x xs =>
          rw [List.cons_append] at hseq
          injection hseq with hx _
          subst hx
          intro he
          rw [he] at ha2
          simp [headStar] at ha2
      show headStar (mkRepl a b ++ powRound rest) = decide (c = '*')
      simp [mkRepl, headStar, hc]

/-- Each substitution pass can only lower the star-pair count, and a
pass that changes the string strictly lowers it. -/
theorem countPow_powRound (s : List Char) :
    countPow (powRound s) ≤ countPow s ∧
      (powRound s ≠ s → countPow (powRound s) < countPow s) := by
  have H : ∀ n (s : List Char), s.length ≤ n →
      countPow (powRound s) ≤ countPow s ∧
        (powRound s ≠ s → countPow (powRound s) < countPow s) := by
    intro n
    induction n with
    | zero =>
      intro s hs
      rw [List.length_eq_zero.mp (Nat.le_zero.mp hs)]
      exact ⟨le_refl _, fun hne => absurd rfl hne⟩
    | succ k ih =>
      intro s hs
      cases s with
      | nil => exact ⟨le_refl _, fun hne => absurd rfl hne⟩
      | cons c r =>
        rw [powRound_cons]
        cases h : matchPowAt (c :: r) with
        | none =>
          have hr : r.length ≤ k := by
            simp only [List.length_cons] at hs
            omega
          obtain ⟨ihle, ihlt⟩ := ih r hr
          have hhead : headStar (powRound r) = headStar r := headStar_powRound r
          constructor
          · rw [countPow_cons, countPow_cons, hhead]
            omega
          · intro hne
            have hne2 : powRound r ≠ r := by
              intro he
              exact hne (by rw [he])
            have := ihlt hne2
            rw [countPow_cons, countPow_cons, hhead]
            omega
        | some abr =>
          obtain ⟨a, b, rest⟩ := abr
          obtain ⟨w1, w2, hseq, hw1, hw2, ha1, hb1, ha2, ha3, hb2, hb3⟩ :=
            matchPowAt_decomp h
          have hrest : rest.length ≤ k := by
            have := matchPowAt_rest_lt h
            simp only [List.length_cons] at hs this
            omega
          obtain ⟨ihle, _⟩ := ih rest hrest
          -- count of the source region
          have hsrc : countPow (c :: r) =
              countPow a + (1 + (countPow b + countPow rest)) := by
            rw [hseq, countPow_append_left ha3,
              countPow_append_left (lastStar_false_of_all
                (fun x hx => ne_star_of_spaceC (hw1 x hx)))]
            rw [countPow_zero_of_no_star (fun x hx => ne_star_of_spaceC (hw1 x hx))]
            rw [countPow_cons, countPow_cons]
            have hT : headStar (w2 ++ (b ++ rest)) = false := by
              rw [headStar_append]
              cases w2 with
              | nil =>
                simp only [List.isEmpty_nil, if_true]
                rw [headStar_append]
                cases b with
                | nil => exact absurd rfl hb1
                | cons y ys => simpa using hb2
              | cons z zs =>
                simp only [List.isEmpty_cons, Bool.false_eq_true, if_neg]
                exact headStar_false_of_all
                  (fun x hx => ne_star_of_spaceC (hw2 x hx))
            rw [hT]
            rw [countPow_append_left (lastStar_false_of_all
              (fun x hx => ne_star_of_spaceC (hw2 x hx)))]
            rw [countPow_zero_of_no_star (fun x hx => ne_star_of_spaceC (hw2 x hx))]
            rw [countPow_append_left hb3]
            simp [headStar]
          have hout : countPow (mkRepl a b ++ powRound rest) =
              countPow a + (countPow b + countPow (powRound rest)) :=
            countPow_mkRepl_append a b (powRound rest) ha3 hb3
          constructor
          · rw [hout, hsrc]
            omega
          · intro _
            rw [hout, hsrc]
            omega
  exact H s.length s le_rfl

/-- With countPow s + 1 rounds of budget, the loop lands on a true
fixed point of the substitution — the modelled while-loop terminates
and its fuel bound is sufficient. -/
theorem convertPowerLoop_fix : ∀ (n : ℕ) (s : List Char), countPow s < n →
    powRound (convertPowerLoop n s) = convertPowerLoop n s := by
  intro n
  induction n with
  | zero => intro s h; omega
  | succ k ih =>
    intro s h
    rw [convertPowerLoop]
    split_ifs with he
    · exact he
    · apply ih
      have := (countPow_powRound s).2 he
      omega

/-- C10: the power-rewrite loop terminates: a pass that changes the
string strictly decreases the number of ** occurrences (the
replacement pow(A, B) introduces none between the matched operands),
so the rewriting reaches a string that one further pass leaves
unchanged — the fixed point convert_power_operator returns. -/
theorem c10_power_rewrite_terminates :
    (∀ s : List Char, powRound s ≠ s → countPow (powRound s) < countPow s) ∧
    (∀ s : String,
        powRound (convert_power_operator s).data = (convert_power_operator s).data) := by
  constructor
  · intro s h
    exact (countPow_powRound s).2 h
  · intro s
    show powRound (convertPowerL s.data) = convertPowerL s.data
    exact convertPowerLoop_fix _ _ (Nat.lt_succ_self _)

/-- Witness for c10_power_rewrite_terminates: the strict decrease at
a concrete changing input, hypothesis discharged by computation. -/
theorem c10_power_rewrite_terminates_witness :
    countPow (powRound "2**3".data) < countPow "2**3".data ∧
    powRound (convert_power_operator "2**3").data = (convert_power_operator "2**3").data :=
  ⟨c10_power_rewrite_terminates.1 "2**3".data (by decide),
   c10_power_rewrite_terminates.2 "2**3"⟩

/-! ## Idempotence of preprocess_expression

The second application of each preprocessing pass is shown to be the
identity.  Two ingredients: the case-folding substitutions change
only letter case (so the power-pattern scanner, which is
case-blind in all its character tests, finds nothing new), and a
case-folding substitution leaves its own output and the output of
the other (lowercase-producing) substitutions fixed. -/

/-- Two texts equal up to letter case. -/
def CaseEq (u v : List Char) : Prop := mapLower u = mapLower v

theorem caseEq_length {u v : List Char} (h : CaseEq u v) : u.length = v.length := by
  have := congrArg List.length h
  simpa [mapLower] using this

theorem caseEq_nil {v : List Char} (h : CaseEq [] v) : v = [] := by
  have := caseEq_length h
  exact List.length_eq_zero.mp this.symm

theorem caseEq_cons_iff {a b : Char} {u v : List Char} :
    CaseEq (a :: u) (b :: v) ↔ lowerC a = lowerC b ∧ CaseEq u v := by
  show mapLower _ = mapLower _ ↔ _
  simp [mapLower, CaseEq]

theorem caseEq_cons_dest {a : Char} {u w : List Char} (h : CaseEq (a :: u) w) :
    ∃ b v, w = b :: v ∧ lowerC a = lowerC b ∧ CaseEq u v := by
  cases w with
  | nil =>
    have := caseEq_length h
    simp at this
  | cons b v =>
    exact ⟨b, v, rfl, (caseEq_cons_iff.mp h).1, (caseEq_cons_iff.mp h).2⟩

theorem caseEq_append {a b c d : List Char} (h1 : CaseEq a b) (h2 : CaseEq c d) :
    CaseEq (a ++ c) (b ++ d) := by
  show mapLower _ = mapLower _
  rw [mapLower_append, mapLower_append, h1, h2]

theorem caseEq_isEmpty {u v : List Char} (h : CaseEq u v) : u.isEmpty = v.isEmpty := by
  cases u with
  | nil => rw [caseEq_nil h]
  | cons a u =>
    obtain ⟨b, v', rfl, _, _⟩ := caseEq_cons_dest h
    rfl

/-- Equality tests against non-letter characters are case-blind. -/
theorem symbol_eq_congr {a b : Char} (hab : lowerC a = lowerC b) {t : Char}
    (ht : isAlphaC t = false) : (a = t) = (b = t) := by
  rw [← lowerC_eq_symbol ht a, ← lowerC_eq_symbol ht b, hab]

/-- Equality with a non-letter character transfers along lowerC-equality. -/
theorem symbol_transfer {a b t : Char} (ht : isAlphaC t = false)
    (hab : lowerC a = lowerC b) (h : a = t) : b = t := by
  apply (iff_of_eq (lowerC_eq_symbol ht b)).mp
  rw [← hab, h]
  exact (iff_of_eq (lowerC_eq_symbol ht t)).mpr rfl

/-- takeWhile and dropWhile with a case-blind predicate respect
case-insensitive equality. -/
theorem scan_congr (p : Char → Bool) (hp : ∀ a b, lowerC a = lowerC b → p a = p b) :
    ∀ {u v : List Char}, CaseEq u v →
      CaseEq (u.takeWhile p) (v.takeWhile p) ∧ CaseEq (u.dropWhile p) (v.dropWhile p) := by
  intro u
  induction u with
  | nil =>
    intro v h
    rw [caseEq_nil h]
    exact ⟨rfl, rfl⟩
  | cons a u ih =>
    intro v h
    obtain ⟨b, v', rfl, hab, huv⟩ := caseEq_cons_dest h
    obtain ⟨iht, ihd⟩ := ih huv
    rw [List.takeWhile_cons, List.takeWhile_cons, List.dropWhile_cons, List.dropWhile_cons,
      ← hp a b hab]
    by_cases hpa : p a = true
    · simp only [if_pos hpa]
      exact ⟨caseEq_cons_iff.mpr ⟨hab, iht⟩, ihd⟩
    · simp only [if_neg hpa]
      exact ⟨rfl, caseEq_cons_iff.mpr ⟨hab, huv⟩⟩

theorem hp_isDigitC : ∀ a b : Char, lowerC a = lowerC b → isDigitC a = isDigitC b := by
  intro a b h
  rw [← isDigitC_lowerC a, ← isDigitC_lowerC b, h]

theorem hp_isWordC : ∀ a b : Char, lowerC a = lowerC b → isWordC a = isWordC b := by
  intro a b h
  rw [← isWordC_lowerC a, ← isWordC_lowerC b, h]

theorem hp_isSpaceC : ∀ a b : Char, lowerC a = lowerC b → isSpaceC a = isSpaceC b := by
  intro a b h
  rw [← isSpaceC_lowerC a, ← isSpaceC_lowerC b, h]

theorem hp_isIdentStartC : ∀ a b : Char,
    lowerC a = lowerC b → isIdentStartC a = isIdentStartC b := by
  intro a b h
  rw [← isIdentStartC_lowerC a, ← isIdentStartC_lowerC b, h]

theorem hp_ne_paren : ∀ a b : Char, lowerC a = lowerC b →
    (fun d => decide (d ≠ ')')) a = (fun d => decide (d ≠ ')')) b := by
  intro a b h
  exact decide_eq_decide.mpr (not_congr (iff_of_eq (symbol_eq_congr h (by decide))))

theorem numberTail_noDot {r : List Char}
    (h : ∀ d r2, r.dropWhile isDigitC = d :: r2 → ¬d = '.') :
    numberTail r = (r.takeWhile isDigitC, r.dropWhile isDigitC) := by
  unfold numberTail
  dsimp only
  split
  · next r2 heq => exact absurd rfl (h '.' r2 heq)
  · rfl

theorem numberTail_dot {r r2 : List Char} (heq : r.dropWhile isDigitC = '.' :: r2) :
    numberTail r =
      if (r2.takeWhile isDigitC).isEmpty then (r.takeWhile isDigitC, '.' :: r2)
      else (r.takeWhile isDigitC ++ '.' :: r2.takeWhile isDigitC, r2.dropWhile isDigitC) := by
  unfold numberTail
  dsimp only
  split
  · next r2x heq2 =>
    rw [heq] at heq2
    injection heq2 with h1 h2
    subst h2
    rw [heq]
  · next hne => exact absurd heq (hne r2)

theorem numberTail_congr {r r' : List Char} (h : CaseEq r r') :
    CaseEq (numberTail r).1 (numberTail r').1 ∧ CaseEq (numberTail r).2 (numberTail r').2 := by
  obtain ⟨ht, hd⟩ := scan_congr isDigitC hp_isDigitC h
  cases hdr : r.dropWhile isDigitC with
  | nil =>
    have hdr' : r'.dropWhile isDigitC = [] := caseEq_nil (hdr ▸ hd)
    rw [numberTail_noDot (fun d r2 hc => by rw [hdr] at hc; cases hc),
      numberTail_noDot (fun d r2 hc => by rw [hdr'] at hc; cases hc)]
    exact ⟨ht, hd⟩
  | cons d r2 =>
    obtain ⟨d', r2', hdr', hdd, hr2⟩ := caseEq_cons_dest (hdr ▸ hd)
    by_cases hdot : d = '.'
    · subst hdot
      have hdot' : d' = '.' := symbol_transfer (by decide) hdd rfl
      subst hdot'
      obtain ⟨ht2, hd2⟩ := scan_congr isDigitC hp_isDigitC hr2
      rw [numberTail_dot hdr, numberTail_dot hdr']
      rw [caseEq_isEmpty ht2]
      by_cases hem : (r2'.takeWhile isDigitC).isEmpty = true
      · simp only [if_pos hem]
        exact ⟨ht, by rw [hdr, hdr'] at hd; exact hd⟩
      · simp only [if_neg hem]
        exact ⟨caseEq_append ht (caseEq_cons_iff.mpr ⟨rfl, ht2⟩), hd2⟩
    · have hdot' : ¬d' = '.' := fun hc =>
        hdot (symbol_transfer (by decide) hdd.symm hc)
      rw [numberTail_noDot (fun e t hc => by
          rw [hdr] at hc; injection hc with h1 _; exact h1 ▸ hdot),
        numberTail_noDot (fun e t hc => by
          rw [hdr'] at hc; injection hc with h1 _; exact h1 ▸ hdot')]
      exact ⟨ht, hd⟩

/-- Pairwise case-insensitive equality of two optional scanner results. -/
def optRelCE : Option (List Char × List Char) → Option (List Char × List Char) → Prop
  | none, none => True
  | some (a, r), some (b, t) => CaseEq a b ∧ CaseEq r t
  | none, some _ => False
  | some _, none => False

theorem parenAt_congr {r r' : List Char} (h : CaseEq r r') :
    optRelCE (parenAt r) (parenAt r') := by
  obtain ⟨ht, hd⟩ := scan_congr (fun d => decide (d ≠ ')')) hp_ne_paren h
  unfold parenAt
  dsimp only
  cases hdr : r.dropWhile (fun d => decide (d ≠ ')')) with
  | nil =>
    have hdr' : r'.dropWhile (fun d => decide (d ≠ ')')) = [] := caseEq_nil (hdr ▸ hd)
    rw [hdr']
    trivial
  | cons d r2 =>
    obtain ⟨d', r2', hdr', hdd, hr2⟩ := caseEq_cons_dest (hdr ▸ hd)
    rw [hdr']
    by_cases hdp : d = ')'
    · subst hdp
      have hdp' : d' = ')' := symbol_transfer (by decide) hdd rfl
      subst hdp'
      simp only [caseEq_isEmpty ht]
      by_cases hem : (r'.takeWhile (fun d => decide (d ≠ ')'))).isEmpty = true
      · simp only [if_pos hem]
        trivial
      · simp only [if_neg hem]
        exact ⟨caseEq_cons_iff.mpr ⟨rfl, caseEq_append ht rfl⟩, hr2⟩
    · have hdp' : ¬d' = ')' := fun hc =>
        hdp (symbol_transfer (by decide) hdd.symm hc)
      split
      · next heq =>
        injection heq with h1 _
        exact absurd h1 hdp
      · split
        · next heq =>
          injection heq with h1 _
          exact absurd h1 hdp'
        · trivial

theorem operandAt_congr : ∀ {s s' : List Char}, CaseEq s s' →
    optRelCE (operandAt s) (operandAt s') := by
  intro s s' h
  cases s with
  | nil =>
    rw [caseEq_nil h]
    trivial
  | cons c r =>
    obtain ⟨c', r', rfl, hcc, hrr⟩ := caseEq_cons_dest h
    simp only [operandAt]
    rw [← hp_isIdentStartC c c' hcc, ← hp_isDigitC c c' hcc]
    by_cases h1 : isIdentStartC c = true
    · simp only [if_pos h1]
      obtain ⟨ht, hd⟩ := scan_congr isWordC hp_isWordC hrr
      exact ⟨caseEq_cons_iff.mpr ⟨hcc, ht⟩, hd⟩
    · simp only [if_neg h1]
      by_cases h2 : isDigitC c = true
      · simp only [if_pos h2]
        obtain ⟨ht, hd⟩ := numberTail_congr hrr
        exact ⟨caseEq_cons_iff.mpr ⟨hcc, ht⟩, hd⟩
      · simp only [if_neg h2]
        by_cases h3 : c = '('
        · have h3' : c' = '(' := symbol_transfer (by decide) hcc h3
          rw [if_pos h3, if_pos h3']
          exact parenAt_congr hrr
        · have h3' : ¬c' = '(' := fun hc => h3 (symbol_transfer (by decide) hcc.symm hc)
          rw [if_neg h3, if_neg h3']
          trivial

/-- Pairwise case-insensitive equality of two optional power-pattern
matches. -/
def optRel3 : Option (List Char × List Char × List Char) →
    Option (List Char × List Char × List Char) → Prop
  | none, none => True
  | some (a, b, r), some (a2, b2, r2) => CaseEq a a2 ∧ CaseEq b b2 ∧ CaseEq r r2
  | none, some _ => False
  | some _, none => False

/-- matchPowAt when the first operand is absent. -/
theorem matchPowAt_eq_none1 {s : List Char} (ho : operandAt s = none) :
    matchPowAt s = none := by
  unfold matchPowAt
  split
  · rfl
  · next heq =>
    rw [ho] at heq
    cases heq

/-- matchPowAt when no two stars follow the first operand. -/
theorem matchPowAt_eq_nostar {s a r1 : List Char} (ho : operandAt s = some (a, r1))
    (hne : ∀ u, r1.dropWhile isSpaceC ≠ '*' :: '*' :: u) :
    matchPowAt s = none := by
  unfold matchPowAt
  split
  · rfl
  · next heq =>
    rw [ho] at heq
    injection heq with h1
    injection h1 with h2 h3
    subst h2
    subst h3
    split
    · next u heq2 => exact absurd heq2 (hne u)
    · rfl

/-- matchPowAt when the stars are there but the second operand is
absent. -/
theorem matchPowAt_eq_star_none {s a r1 u : List Char} (ho : operandAt s = some (a, r1))
    (hw : r1.dropWhile isSpaceC = '*' :: '*' :: u)
    (hi : operandAt (u.dropWhile isSpaceC) = none) :
    matchPowAt s = none := by
  unfold matchPowAt
  split
  · rfl
  · next heq =>
    rw [ho] at heq
    injection heq with h1
    injection h1 with h2 h3
    subst h2
    subst h3
    split
    · next u2 heq2 =>
      rw [hw] at heq2
      injection heq2 with h4 h5
      injection h5 with h6 h7
      subst h7
      split
      · rfl
      · next heq3 =>
        rw [hi] at heq3
        cases heq3
    · rfl

/-- matchPowAt on a full match. -/
theorem matchPowAt_eq_star_some {s a r1 u b r5 : List Char}
    (ho : operandAt s = some (a, r1))
    (hw : r1.dropWhile isSpaceC = '*' :: '*' :: u)
    (hi : operandAt (u.dropWhile isSpaceC) = some (b, r5)) :
    matchPowAt s = some (a, b, r5) := by
  unfold matchPowAt
  split
  · next heq =>
    rw [ho] at heq
    cases heq
  · next heq =>
    rw [ho] at heq
    injection heq with h1
    injection h1 with h2 h3
    subst h2
    subst h3
    split
    · next u2 heq2 =>
      rw [hw] at heq2
      injection heq2 with h4 h5
      injection h5 with h6 h7
      subst h7
      split
      · next heq3 =>
        rw [hi] at heq3
        cases heq3
      · next heq3 =>
        rw [hi] at heq3
        injection heq3 with h8
        injection h8 with h9 h10
        subst h9
        subst h10
        rfl
    · next hne => exact absurd hw (hne u)

/-- The power-pattern matcher is case-blind: on texts equal up to
case it matches at the same positions with case-equal pieces. -/
theorem matchPowAt_congr {s s2 : List Char} (h : CaseEq s s2) :
    optRel3 (matchPowAt s) (matchPowAt s2) := by
  have h1 := operandAt_congr h
  cases ho : operandAt s with
  | none =>
    cases ho2 : operandAt s2 with
    | none => rw [matchPowAt_eq_none1 ho, matchPowAt_eq_none1 ho2]; trivial
    | some p2 =>
      rw [ho, ho2] at h1
      exact h1.elim
  | some p =>
    obtain ⟨a, r1⟩ := p
    cases ho2 : operandAt s2 with
    | none =>
      rw [ho, ho2] at h1
      exact h1.elim
    | some p2 =>
      obtain ⟨a2, r12⟩ := p2
      rw [ho, ho2] at h1
      obtain ⟨ha, hr1⟩ := h1
      obtain ⟨-, hd1⟩ := scan_congr isSpaceC hp_isSpaceC hr1
      cases hw : r1.dropWhile isSpaceC with
      | nil =>
        have hw2 : r12.dropWhile isSpaceC = [] := caseEq_nil (hw ▸ hd1)
        rw [matchPowAt_eq_nostar ho (fun u hc => by rw [hw] at hc; simp at hc),
          matchPowAt_eq_nostar ho2 (fun u hc => by rw [hw2] at hc; simp at hc)]
        trivial
      | cons x t =>
        have hst : CaseEq (x :: t) (r12.dropWhile isSpaceC) := hw ▸ hd1
        obtain ⟨x2, t2, hw2, hxx, htt⟩ := caseEq_cons_dest hst
        by_cases hx : x = '*'
        · subst hx
          have hx2 : x2 = '*' := symbol_transfer (by decide) hxx rfl
          subst hx2
          cases t with
          | nil =>
            have ht2 : t2 = [] := caseEq_nil htt
            subst ht2
            rw [matchPowAt_eq_nostar ho (fun u hc => by
                rw [hw] at hc; injection hc with h1 h2; simp at h2),
              matchPowAt_eq_nostar ho2 (fun u hc => by
                rw [hw2] at hc; injection hc with h1 h2; simp at h2)]
            trivial
          | cons y u =>
            obtain ⟨y2, u2, htu, hyy, huu⟩ := caseEq_cons_dest htt
            subst htu
            by_cases hy : y = '*'
            · subst hy
              have hy2 : y2 = '*' := symbol_transfer (by decide) hyy rfl
              subst hy2
              obtain ⟨-, hd2⟩ := scan_congr isSpaceC hp_isSpaceC huu
              have h2 := operandAt_congr hd2
              cases hi : operandAt (u.dropWhile isSpaceC) with
              | none =>
                cases hi2 : operandAt (u2.dropWhile isSpaceC) with
                | none =>
                  rw [matchPowAt_eq_star_none ho hw hi,
                    matchPowAt_eq_star_none ho2 hw2 hi2]
                  trivial
                | some q2 =>
                  rw [hi, hi2] at h2
                  exact h2.elim
              | some q =>
                obtain ⟨b, r5⟩ := q
                cases hi2 : operandAt (u2.dropWhile isSpaceC) with
                | none =>
                  rw [hi, hi2] at h2
                  exact h2.elim
                | some q2 =>
                  obtain ⟨b2, r52⟩ := q2
                  rw [hi, hi2] at h2
                  rw [matchPowAt_eq_star_some ho hw hi,
                    matchPowAt_eq_star_some ho2 hw2 hi2]
                  exact ⟨ha, h2.1, h2.2⟩
            · have hy2 : ¬y2 = '*' := fun hc =>
                hy (symbol_transfer (by decide) hyy.symm hc)
              rw [matchPowAt_eq_nostar ho (fun v hc => by
                  rw [hw] at hc; injection hc with h1 h2; injection h2 with h3 h4
                  exact hy h3),
                matchPowAt_eq_nostar ho2 (fun v hc => by
                  rw [hw2] at hc; injection hc with h1 h2; injection h2 with h3 h4
                  exact hy2 h3)]
              trivial
        · have hx2 : ¬x2 = '*' := fun hc =>
            hx (symbol_transfer (by decide) hxx.symm hc)
          rw [matchPowAt_eq_nostar ho (fun v hc => by
              rw [hw] at hc; injection hc with h3 h4; exact hx h3),
            matchPowAt_eq_nostar ho2 (fun v hc => by
              rw [hw2] at hc; injection hc with h3 h4; exact hx2 h3)]
          trivial

/-- One substitution pass of the power rewrite is case-blind: on
texts equal up to case its outputs are equal up to case. -/
theorem powRound_congr {u v : List Char} (h : CaseEq u v) :
    CaseEq (powRound u) (powRound v) := by
  have H : ∀ n (u v : List Char), u.length ≤ n → CaseEq u v →
      CaseEq (powRound u) (powRound v) := by
    intro n
    induction n with
    | zero =>
      intro u v hu h
      rw [List.length_eq_zero.mp (Nat.le_zero.mp hu)] at h ⊢
      rw [caseEq_nil h]
      rfl
    | succ k ih =>
      intro u v hu h
      cases u with
      | nil =>
        rw [caseEq_nil h]
        rfl
      | cons c r =>
        obtain ⟨c2, r2, rfl, hcc, hrr⟩ := caseEq_cons_dest h
        have hm := matchPowAt_congr h
        rw [powRound_cons, powRound_cons]
        cases hma : matchPowAt (c :: r) with
        | none =>
          cases hma2 : matchPowAt (c2 :: r2) with
          | none =>
            have hrk : r.length ≤ k := by
              simp only [List.length_cons] at hu
              omega
            exact caseEq_cons_iff.mpr ⟨hcc, ih r r2 hrk hrr⟩
          | some p =>
            rw [hma, hma2] at hm
            exact hm.elim
        | some p =>
          obtain ⟨a, b, rest⟩ := p
          cases hma2 : matchPowAt (c2 :: r2) with
          | none =>
            rw [hma, hma2] at hm
            exact hm.elim
          | some p2 =>
            obtain ⟨a2, b2, rest2⟩ := p2
            rw [hma, hma2] at hm
            obtain ⟨hA, hB, hR⟩ := hm
            have hrl : rest.length ≤ k := by
              have := matchPowAt_rest_lt hma
              simp only [List.length_cons] at hu this
              omega
            refine caseEq_append ?_ (ih rest rest2 hrl hR)
            show mapLower _ = mapLower _
            simp only [mkRepl, mapLower, List.map_cons, List.map_append]
            have hA2 : List.map lowerC a = List.map lowerC a2 := hA
            have hB2 : List.map lowerC b = List.map lowerC b2 := hB
            rw [hA2, hB2]
  exact H u.length u v le_rfl h

theorem countPowAux_congr : ∀ {u v : List Char} {c d : Char}, lowerC c = lowerC d →
    CaseEq u v → countPowAux c u = countPowAux d v := by
  intro u
  induction u with
  | nil =>
    intro v c d hcd h
    rw [caseEq_nil h]
    rfl
  | cons a u ih =>
    intro v c d hcd h
    obtain ⟨b, v2, rfl, hab, huv⟩ := caseEq_cons_dest h
    show (if c = '*' && a = '*' then 1 else 0) + countPowAux a u =
      (if d = '*' && b = '*' then 1 else 0) + countPowAux b v2
    have h1 : decide (c = '*') = decide (d = '*') :=
      decide_eq_decide.mpr (iff_of_eq (symbol_eq_congr hcd (by decide)))
    have h2 : decide (a = '*') = decide (b = '*') :=
      decide_eq_decide.mpr (iff_of_eq (symbol_eq_congr hab (by decide)))
    rw [ih hab huv, h1, h2]

/-- The star-pair count is case-blind. -/
theorem countPow_congr : ∀ {u v : List Char}, CaseEq u v → countPow u = countPow v := by
  intro u v h
  cases u with
  | nil =>
    rw [caseEq_nil h]
  | cons c r =>
    obtain ⟨d, t, rfl, hcd, hrt⟩ := caseEq_cons_dest h
    show countPowAux c r = countPowAux d t
    exact countPowAux_congr hcd hrt

/-- A fixed point of the substitution pass stays a fixed point under
any change of letter case: a pass that changed the case-variant would
strictly lower its star-pair count, but the counts of the variant and
of the pass outputs all agree with the original. -/
theorem powRound_fix_transfer {u v : List Char} (h : CaseEq u v) (hu : powRound u = u) :
    powRound v = v := by
  by_contra hne
  have hlt := (countPow_powRound v).2 hne
  have h1 : CaseEq (powRound v) (powRound u) := powRound_congr h.symm
  have h2 : countPow (powRound v) = countPow v := by
    calc countPow (powRound v) = countPow (powRound u) := countPow_congr h1
      _ = countPow u := by rw [hu]
      _ = countPow v := countPow_congr h
  omega

/-- The loop returns its input unchanged when the input is already a
fixed point of the substitution pass. -/
theorem convertPowerL_of_fix {s : List Char} (h : powRound s = s) : convertPowerL s = s := by
  show convertPowerLoop (countPow s + 1) s = s
  rw [convertPowerLoop]
  simp [h]

/-- The second text is the first with some letters lowercased
in place. All substitutions of preprocess_expression relate their
input to their output this way. -/
def LowersOnly (u v : List Char) : Prop :=
  List.Forall₂ (fun a b => b = a ∨ b = lowerC a) u v

theorem lowersOnly_refl (u : List Char) : LowersOnly u u :=
  List.forall₂_same.mpr (fun _ _ => Or.inl rfl)

theorem lowersOnly_trans : ∀ {u v w : List Char},
    LowersOnly u v → LowersOnly v w → LowersOnly u w := by
  intro u
  induction u with
  | nil =>
    intro v w h1 h2
    cases h1
    cases h2
    exact List.Forall₂.nil
  | cons a u ih =>
    intro v w h1 h2
    cases h1 with
    | cons hab h1t =>
      cases h2 with
      | cons hbc h2t =>
        refine List.Forall₂.cons ?_ (ih h1t h2t)
        rcases hab with rfl | rfl
        · exact hbc
        · rcases hbc with rfl | rfl
          · exact Or.inr rfl
          · exact Or.inr (lowerC_lowerC a)

theorem lowersOnly_mapLower : ∀ {u v : List Char}, LowersOnly u v → CaseEq u v := by
  intro u
  induction u with
  | nil =>
    intro v h
    cases h
    rfl
  | cons a u ih =>
    intro v h
    cases h with
    | cons hab ht =>
      refine caseEq_cons_iff.mpr ⟨?_, ih ht⟩
      rcases hab with rfl | rfl
      · rfl
      · exact (lowerC_lowerC a).symm

theorem lowersOnly_append {a b c d : List Char} (h1 : LowersOnly a b)
    (h2 : LowersOnly c d) : LowersOnly (a ++ c) (b ++ d) :=
  List.rel_append h1 h2

theorem lowersOnly_append_split : ∀ {a b v : List Char}, LowersOnly (a ++ b) v →
    ∃ u w, v = u ++ w ∧ LowersOnly a u ∧ LowersOnly b w := by
  intro a
  induction a with
  | nil =>
    intro b v h
    exact ⟨[], v, rfl, List.Forall₂.nil, h⟩
  | cons x a ih =>
    intro b v h
    cases h with
    | cons hxy ht =>
      obtain ⟨u, w, rfl, hu, hw⟩ := ih ht
      exact ⟨_ :: u, w, rfl, List.Forall₂.cons hxy hu, hw⟩

/-- A window whose lowercasing is f is f up to lowercasing. -/
theorem lowersOnly_of_mapLower_eq : ∀ {w f : List Char}, mapLower w = f →
    LowersOnly w f := by
  intro w
  induction w with
  | nil =>
    intro f h
    rw [← h]
    exact List.Forall₂.nil
  | cons a w ih =>
    intro f h
    rw [← h]
    show LowersOnly (a :: w) (lowerC a :: mapLower w)
    exact List.Forall₂.cons (Or.inr rfl) (ih rfl)

/-- Lowercasing in place does not move a text that is already
lowercase. -/
theorem lowersOnly_eq_of_lower_fixed : ∀ {f g : List Char}, mapLower f = f →
    LowersOnly f g → g = f := by
  intro f
  induction f with
  | nil =>
    intro g _ h
    cases h
    rfl
  | cons a f ih =>
    intro g hlow h
    have hlow2 : lowerC a :: mapLower f = a :: f := hlow
    injection hlow2 with h1 h2
    cases h with
    | cons hab ht =>
      rw [ih h2 ht]
      rcases hab with rfl | rfl
      · rfl
      · rw [h1]

theorem caseEq_drop (n : ℕ) {u v : List Char} (h : CaseEq u v) :
    CaseEq (u.drop n) (v.drop n) := by
  show List.map lowerC _ = List.map lowerC _
  rw [List.map_drop, List.map_drop]
  exact congrArg (List.drop n) h

/-- The case-insensitive prefix test depends only on the lowercased
text. -/
theorem isPrefixCI_congr (f : List Char) {u v : List Char} (h : CaseEq u v) :
    isPrefixCI f u = isPrefixCI f v := by
  show f.isPrefixOf (mapLower u) = f.isPrefixOf (mapLower v)
  rw [show mapLower u = mapLower v from h]

/-- The trailing word-boundary test depends only on the lowercased
dropped part. -/
theorem boundaryAfter_congr {f u v : List Char}
    (h : CaseEq (u.drop f.length) (v.drop f.length)) :
    boundaryAfter f u = boundaryAfter f v := by
  unfold boundaryAfter
  cases hdu : u.drop f.length with
  | nil =>
    have hdv : v.drop f.length = [] := caseEq_nil (hdu ▸ h)
    rw [hdv]
  | cons d t =>
    obtain ⟨d2, t2, hdv, hdd, -⟩ := caseEq_cons_dest (hdu ▸ h)
    rw [hdv]
    show (!isWordC d) = (!isWordC d2)
    rw [hp_isWordC d d2 hdd]

/-- A case-insensitive literal substitution only lowercases letters
in place. -/
theorem caseSub_lowersOnly (f : List Char) (hf : f ≠ []) :
    ∀ s, LowersOnly s (caseSub f s) := by
  have H : ∀ n (s : List Char), s.length ≤ n → LowersOnly s (caseSub f s) := by
    intro n
    induction n with
    | zero =>
      intro s hs
      rw [List.length_eq_zero.mp (Nat.le_zero.mp hs)]
      exact List.Forall₂.nil
    | succ k ih =>
      intro s hs
      cases s with
      | nil => exact List.Forall₂.nil
      | cons c r =>
        rw [caseSub_cons]
        split_ifs with hp
        · have hdec : c :: r = (c :: r.take (f.length - 1)) ++ r.drop (f.length - 1) := by
            rw [List.cons_append, List.take_append_drop]
          rw [hdec]
          refine lowersOnly_append (lowersOnly_of_mapLower_eq (window_mapLower f hf hp))
            (ih _ ?_)
          have := List.length_drop (f.length - 1) r
          simp only [List.length_cons] at hs
          omega
        · refine List.Forall₂.cons (Or.inl rfl) (ih r ?_)
          simp only [List.length_cons] at hs
          omega
  exact fun s => H s.length s le_rfl

/-- A whole-word constant substitution only lowercases letters in
place. -/
theorem wordSub_lowersOnly (f : List Char) (hf : f ≠ []) :
    ∀ s (p : Bool), LowersOnly s (wordSub f p s) := by
  have H : ∀ n (s : List Char) (p : Bool), s.length ≤ n → LowersOnly s (wordSub f p s) := by
    intro n
    induction n with
    | zero =>
      intro s p hs
      rw [List.length_eq_zero.mp (Nat.le_zero.mp hs)]
      exact List.Forall₂.nil
    | succ k ih =>
      intro s p hs
      cases s with
      | nil => exact List.Forall₂.nil
      | cons c r =>
        rw [wordSub_cons f hf]
        split_ifs with hp
        · have hpre : isPrefixCI f (c :: r) = true := by
            simp only [Bool.and_eq_true] at hp
            exact hp.1.2
          have hdec : c :: r = (c :: r.take (f.length - 1)) ++ r.drop (f.length - 1) := by
            rw [List.cons_append, List.take_append_drop]
          rw [hdec]
          refine lowersOnly_append (lowersOnly_of_mapLower_eq (window_mapLower f hf hpre))
            (ih _ _ ?_)
          have := List.length_drop (f.length - 1) r
          simp only [List.length_cons] at hs
          omega
        · refine List.Forall₂.cons (Or.inl rfl) (ih r _ ?_)
          simp only [List.length_cons] at hs
          omega
  exact fun s p => H s.length s p le_rfl

theorem lowersOnly_cons_dest {c : Char} {r t : List Char}
    (h : LowersOnly (c :: r) t) :
    ∃ b t2, t = b :: t2 ∧ (b = c ∨ b = lowerC c) ∧ LowersOnly r t2 := by
  cases h with
  | cons hct hl2 => exact ⟨_, _, rfl, hct, hl2⟩

/-- Scanning at a literal canonical occurrence of the pattern
matches it and continues right after it. -/
theorem caseSub_literal_head (f : List Char) (hf : f ≠ []) (hlow : mapLower f = f)
    (X : List Char) : caseSub f (f ++ X) = f ++ caseSub f X := by
  obtain ⟨f0, ftl, rfl⟩ : ∃ f0 ftl, f = f0 :: ftl := by
    cases f with
    | nil => exact absurd rfl hf
    | cons a b => exact ⟨a, b, rfl⟩
  rw [List.cons_append, caseSub_cons]
  have hpre : isPrefixCI (f0 :: ftl) (f0 :: (ftl ++ X)) = true := by
    simp only [isPrefixCI, List.isPrefixOf_iff_prefix]
    rw [show (f0 :: (ftl ++ X)) = (f0 :: ftl) ++ X from rfl, mapLower_append, hlow]
    exact List.prefix_append _ _
  rw [if_pos hpre]
  have hdl : (f0 :: ftl).length - 1 = ftl.length := by simp
  rw [hdl, List.drop_left]

/-- One case-insensitive literal substitution is idempotent: its
output contains only canonical (already lowercase) occurrences of the
pattern. -/
theorem caseSub_idem (f : List Char) (hf : f ≠ []) (hlow : mapLower f = f) :
    ∀ s, caseSub f (caseSub f s) = caseSub f s := by
  have H : ∀ n (s : List Char), s.length ≤ n → caseSub f (caseSub f s) = caseSub f s := by
    intro n
    induction n with
    | zero =>
      intro s hs
      rw [List.length_eq_zero.mp (Nat.le_zero.mp hs)]
      rfl
    | succ k ih =>
      intro s hs
      cases s with
      | nil => rfl
      | cons c r =>
        rw [caseSub_cons]
        split_ifs with hp
        · have hd : (r.drop (f.length - 1)).length ≤ k := by
            have := List.length_drop (f.length - 1) r
            simp only [List.length_cons] at hs
            omega
          rw [caseSub_literal_head f hf hlow _, ih (r.drop (f.length - 1)) hd]
        · rw [caseSub_cons]
          have hml : CaseEq (c :: caseSub f r) (c :: r) :=
            caseEq_cons_iff.mpr ⟨rfl, mapLower_caseSub f hf hlow r⟩
          have hpre3 : isPrefixCI f (c :: caseSub f r) = false := by
            rw [isPrefixCI_congr f hml]
            revert hp
            cases isPrefixCI f (c :: r) <;> simp
          rw [hpre3]
          simp only [Bool.false_eq_true, if_false]
          have hr : r.length ≤ k := by
            simp only [List.length_cons] at hs
            omega
          rw [ih r hr]
  exact fun s => H s.length s le_rfl

/-- A text every occurrence of the pattern in which is canonical
stays fixed by the substitution after further in-place lowercasing by
other passes. -/
theorem caseSub_stable (f : List Char) (hf : f ≠ []) (hlow : mapLower f = f) :
    ∀ s t, caseSub f s = s → LowersOnly s t → caseSub f t = t := by
  have H : ∀ n (s t : List Char), s.length ≤ n → caseSub f s = s → LowersOnly s t →
      caseSub f t = t := by
    intro n
    induction n with
    | zero =>
      intro s t hs hc hl
      rw [List.length_eq_zero.mp (Nat.le_zero.mp hs)] at hl
      cases hl
      rfl
    | succ k ih =>
      intro s t hs hc hl
      cases s with
      | nil =>
        cases hl
        rfl
      | cons c r =>
        rw [caseSub_cons] at hc
        by_cases hp : isPrefixCI f (c :: r) = true
        · rw [if_pos hp] at hc
          have hfpos : 0 < f.length := List.length_pos.mpr hf
          have hfl : f.length ≤ r.length + 1 := by
            have hpre : f <+: mapLower (c :: r) := by
              simpa [isPrefixCI, List.isPrefixOf_iff_prefix] using hp
            have := hpre.length_le
            simpa [mapLower_length] using this
          have hdec : c :: r = (c :: r.take (f.length - 1)) ++ r.drop (f.length - 1) := by
            rw [List.cons_append, List.take_append_drop]
          have hwl : f.length = (c :: r.take (f.length - 1)).length := by
            simp only [List.length_cons, List.length_take]
            omega
          obtain ⟨hw, hd⟩ := List.append_inj (hc.trans hdec) hwl
          rw [hdec, ← hw] at hl
          obtain ⟨tf, td, rfl, htf, htd⟩ := lowersOnly_append_split hl
          have htf2 : tf = f := lowersOnly_eq_of_lower_fixed hlow htf
          rw [htf2]
          have hdlen : (r.drop (f.length - 1)).length ≤ k := by
            have := List.length_drop (f.length - 1) r
            simp only [List.length_cons] at hs
            omega
          have htd2 : caseSub f td = td := ih _ _ hdlen hd htd
          rw [caseSub_literal_head f hf hlow td, htd2]
        · rw [if_neg hp] at hc
          have hcr : caseSub f r = r := by
            injection hc
          obtain ⟨b, t2, rfl, hct, hl2⟩ := lowersOnly_cons_dest hl
          have hlcb : lowerC b = lowerC c := by
            rcases hct with rfl | rfl
            · rfl
            · exact lowerC_lowerC c
          rw [caseSub_cons]
          have hml : CaseEq (b :: t2) (c :: r) :=
            caseEq_cons_iff.mpr ⟨hlcb, (lowersOnly_mapLower hl2).symm⟩
          have hpre4 : isPrefixCI f (b :: t2) = false := by
            rw [isPrefixCI_congr f hml]
            revert hp
            cases isPrefixCI f (c :: r) <;> simp
          rw [hpre4]
          simp only [Bool.false_eq_true, if_false]
          have hr : r.length ≤ k := by
            simp only [List.length_cons] at hs
            omega
          rw [ih r t2 hr hcr hl2]
  exact fun s t => H s.length s t le_rfl

/-- Scanning at a literal canonical whole-word occurrence of the
constant matches it and continues right after it. -/
theorem wordSub_literal_head (f : List Char) (hf : f ≠ []) (hlow : mapLower f = f)
    (X : List Char) (hbd : boundaryAfter f (f ++ X) = true) :
    wordSub f false (f ++ X) = f ++ wordSub f (lastIsWordC f) X := by
  obtain ⟨f0, ftl, rfl⟩ : ∃ f0 ftl, f = f0 :: ftl := by
    cases f with
    | nil => exact absurd rfl hf
    | cons a b => exact ⟨a, b, rfl⟩
  rw [List.cons_append] at hbd ⊢
  rw [wordSub_cons (f0 :: ftl) hf]
  have hpre : isPrefixCI (f0 :: ftl) (f0 :: (ftl ++ X)) = true := by
    simp only [isPrefixCI, List.isPrefixOf_iff_prefix]
    rw [show (f0 :: (ftl ++ X)) = (f0 :: ftl) ++ X from rfl, mapLower_append, hlow]
    exact List.prefix_append _ _
  have hcond : (!false && isPrefixCI (f0 :: ftl) (f0 :: (ftl ++ X)) &&
      boundaryAfter (f0 :: ftl) (f0 :: (ftl ++ X))) = true := by
    rw [hpre, hbd]
    rfl
  rw [if_pos hcond]
  have hdl : (f0 :: ftl).length - 1 = ftl.length := by simp
  rw [hdl, List.drop_left]

/-- One whole-word constant substitution is idempotent. -/
theorem wordSub_idem (f : List Char) (hf : f ≠ []) (hlow : mapLower f = f) :
    ∀ s (p : Bool), wordSub f p (wordSub f p s) = wordSub f p s := by
  have H : ∀ n (s : List Char) (p : Bool), s.length ≤ n →
      wordSub f p (wordSub f p s) = wordSub f p s := by
    intro n
    induction n with
    | zero =>
      intro s p hs
      rw [List.length_eq_zero.mp (Nat.le_zero.mp hs)]
      rfl
    | succ k ih =>
      intro s p hs
      cases s with
      | nil => rfl
      | cons c r =>
        rw [wordSub_cons f hf]
        split_ifs with hp
        · have hp' := hp
          simp only [Bool.and_eq_true] at hp'
          obtain ⟨⟨hp1, hp2⟩, hp3⟩ := hp'
          have hpfalse : p = false := by
            revert hp1
            cases p <;> simp
          subst hpfalse
          have hfpos : 0 < f.length := List.length_pos.mpr hf
          have hdrop_cr : List.drop f.length (c :: r) = r.drop (f.length - 1) := by
            conv_lhs => rw [show f.length = (f.length - 1) + 1 from by omega]
            rw [List.drop_succ_cons]
          have hbd2 : boundaryAfter f
              (f ++ wordSub f (lastIsWordC f) (r.drop (f.length - 1))) =
              boundaryAfter f (c :: r) := by
            apply boundaryAfter_congr
            rw [List.drop_left, hdrop_cr]
            exact mapLower_wordSub f hf hlow _ _
          rw [wordSub_literal_head f hf hlow _ (by rw [hbd2]; exact hp3)]
          have hd : (r.drop (f.length - 1)).length ≤ k := by
            have := List.length_drop (f.length - 1) r
            simp only [List.length_cons] at hs
            omega
          rw [ih (r.drop (f.length - 1)) (lastIsWordC f) hd]
        · rw [wordSub_cons f hf]
          have hml : CaseEq (c :: wordSub f (isWordC c) r) (c :: r) :=
            caseEq_cons_iff.mpr ⟨rfl, mapLower_wordSub f hf hlow r _⟩
          have he1 : isPrefixCI f (c :: wordSub f (isWordC c) r) = isPrefixCI f (c :: r) :=
            isPrefixCI_congr f hml
          have he2 : boundaryAfter f (c :: wordSub f (isWordC c) r) =
              boundaryAfter f (c :: r) :=
            boundaryAfter_congr (caseEq_drop _ hml)
          rw [he1, he2, if_neg hp]
          have hr : r.length ≤ k := by
            simp only [List.length_cons] at hs
            omega
          rw [ih r (isWordC c) hr]
  exact fun s p => H s.length s p le_rfl

/-- A text whose whole-word constant occurrences are all canonical
stays fixed by the substitution after further in-place lowercasing. -/
theorem wordSub_stable (f : List Char) (hf : f ≠ []) (hlow : mapLower f = f) :
    ∀ s t (p : Bool), wordSub f p s = s → LowersOnly s t → wordSub f p t = t := by
  have H : ∀ n (s t : List Char) (p : Bool), s.length ≤ n → wordSub f p s = s →
      LowersOnly s t → wordSub f p t = t := by
    intro n
    induction n with
    | zero =>
      intro s t p hs hc hl
      rw [List.length_eq_zero.mp (Nat.le_zero.mp hs)] at hl
      cases hl
      rfl
    | succ k ih =>
      intro s t p hs hc hl
      cases s with
      | nil =>
        cases hl
        rfl
      | cons c r =>
        rw [wordSub_cons f hf] at hc
        by_cases hp : (!p && isPrefixCI f (c :: r) && boundaryAfter f (c :: r)) = true
        · rw [if_pos hp] at hc
          have hp' := hp
          simp only [Bool.and_eq_true] at hp'
          obtain ⟨⟨hp1, hp2⟩, hp3⟩ := hp'
          have hpfalse : p = false := by
            revert hp1
            cases p <;> simp
          subst hpfalse
          have hfpos : 0 < f.length := List.length_pos.mpr hf
          have hfl : f.length ≤ r.length + 1 := by
            have hpre : f <+: mapLower (c :: r) := by
              simpa [isPrefixCI, List.isPrefixOf_iff_prefix] using hp2
            have := hpre.length_le
            simpa [mapLower_length] using this
          have hdec : c :: r = (c :: r.take (f.length - 1)) ++ r.drop (f.length - 1) := by
            rw [List.cons_append, List.take_append_drop]
          have hwl : f.length = (c :: r.take (f.length - 1)).length := by
            simp only [List.length_cons, List.length_take]
            omega
          obtain ⟨hw, hd⟩ := List.append_inj (hc.trans hdec) hwl
          rw [hdec, ← hw] at hl
          obtain ⟨tf, td, rfl, htf, htd⟩ := lowersOnly_append_split hl
          have htf2 : tf = f := lowersOnly_eq_of_lower_fixed hlow htf
          rw [htf2]
          have hdrop_cr : List.drop f.length (c :: r) = r.drop (f.length - 1) := by
            conv_lhs => rw [show f.length = (f.length - 1) + 1 from by omega]
            rw [List.drop_succ_cons]
          have hbd2 : boundaryAfter f (f ++ td) = boundaryAfter f (c :: r) := by
            apply boundaryAfter_congr
            rw [List.drop_left, hdrop_cr]
            exact ((lowersOnly_mapLower htd).symm : CaseEq td (r.drop (f.length - 1)))
          rw [wordSub_literal_head f hf hlow td (by rw [hbd2]; exact hp3)]
          have hdlen : (r.drop (f.length - 1)).length ≤ k := by
            have := List.length_drop (f.length - 1) r
            simp only [List.length_cons] at hs
            omega
          rw [ih _ _ _ hdlen hd htd]
        · rw [if_neg hp] at hc
          have hcr : wordSub f (isWordC c) r = r := by
            injection hc
          obtain ⟨b, t2, rfl, hct, hl2⟩ := lowersOnly_cons_dest hl
          have hlcb : lowerC b = lowerC c := by
            rcases hct with rfl | rfl
            · rfl
            · exact lowerC_lowerC c
          rw [wordSub_cons f hf]
          have hml : CaseEq (b :: t2) (c :: r) :=
            caseEq_cons_iff.mpr ⟨hlcb, (lowersOnly_mapLower hl2).symm⟩
          have he1 : isPrefixCI f (b :: t2) = isPrefixCI f (c :: r) :=
            isPrefixCI_congr f hml
          have he2 : boundaryAfter f (b :: t2) = boundaryAfter f (c :: r) :=
            boundaryAfter_congr (caseEq_drop _ hml)
          rw [he1, he2, if_neg hp]
          have hr : r.length ≤ k := by
            simp only [List.length_cons] at hs
            omega
          rw [hp_isWordC b c hlcb, ih r t2 (isWordC c) hr hcr hl2]
  exact fun s t p => H s.length s t p le_rfl

theorem fold_lowersOnly : ∀ (L : List (List Char)), (∀ f ∈ L, f ≠ []) →
    ∀ s, LowersOnly s (L.foldl (fun acc g => caseSub g acc) s) := by
  intro L
  induction L with
  | nil =>
    intro _ s
    exact lowersOnly_refl s
  | cons g L ih =>
    intro hL s
    rw [List.foldl_cons]
    exact lowersOnly_trans (caseSub_lowersOnly g (hL g (List.mem_cons_self g L)) s)
      (ih (fun f hf => hL f (List.mem_cons_of_mem g hf)) (caseSub g s))

/-- After the whole function-name fold, every name of the list is
canonical in the output: its own pass canonicalised it and the later
passes only lowercase in place. -/
theorem fold_canon : ∀ (L : List (List Char)), (∀ f ∈ L, f ≠ [] ∧ mapLower f = f) →
    ∀ (s f : List Char), f ∈ L → caseSub f (L.foldl (fun acc g => caseSub g acc) s) =
      L.foldl (fun acc g => caseSub g acc) s := by
  intro L
  induction L with
  | nil =>
    intro _ s f hf
    cases hf
  | cons g L ih =>
    intro hL s f hf
    rw [List.foldl_cons]
    rcases List.mem_cons.mp hf with rfl | hfL
    · have hg := hL f (List.mem_cons_self f L)
      exact caseSub_stable f hg.1 hg.2 _ _ (caseSub_idem f hg.1 hg.2 s)
        (fold_lowersOnly L (fun h hh => (hL h (List.mem_cons_of_mem f hh)).1) (caseSub f s))
    · exact ih (fun h hh => hL h (List.mem_cons_of_mem g hh)) (caseSub g s) f hfL

theorem fold_fix : ∀ (L : List (List Char)) (w : List Char),
    (∀ f ∈ L, caseSub f w = w) → L.foldl (fun acc g => caseSub g acc) w = w := by
  intro L
  induction L with
  | nil =>
    intro w _
    rfl
  | cons g L ih =>
    intro w h
    rw [List.foldl_cons, h g (List.mem_cons_self g L)]
    exact ih w (fun f hf => h f (List.mem_cons_of_mem g hf))

/-- The full preprocessor is idempotent on character lists: the
second power rewrite finds nothing (the first left a fixed point and
the case folds are case-blind to the scanner), and each case-folding
pass leaves the first run's output fixed. -/
theorem preprocessL_idem (s : List Char) : preprocessL (preprocessL s) = preprocessL s := by
  have hfx : powRound (convertPowerL s) = convertPowerL s :=
    convertPowerLoop_fix _ _ (Nat.lt_succ_self _)
  have hpiN : "pi".data ≠ [] := by decide
  have hpiL : mapLower "pi".data = "pi".data := by decide
  have heN : "e".data ≠ [] := by decide
  have heL : mapLower "e".data = "e".data := by decide
  have hnames := preprocessorFunctionNames_sane
  have hCE : CaseEq (preprocessL s) (convertPowerL s) := by
    show mapLower (wordSub "e".data false (wordSub "pi".data false
      (caseFoldFunctions (convertPowerL s)))) = mapLower (convertPowerL s)
    rw [mapLower_wordSub "e".data heN heL, mapLower_wordSub "pi".data hpiN hpiL,
      mapLower_caseFoldFunctions]
  have hpow2 : convertPowerL (preprocessL s) = preprocessL s :=
    convertPowerL_of_fix (powRound_fix_transfer hCE.symm hfx)
  have hLy : LowersOnly (caseFoldFunctions (convertPowerL s)) (preprocessL s) :=
    lowersOnly_trans (wordSub_lowersOnly "pi".data hpiN _ false)
      (wordSub_lowersOnly "e".data heN _ false)
  have hfns : ∀ f ∈ preprocessorFunctionNames.map String.data,
      caseSub f (preprocessL s) = preprocessL s := by
    intro f hf
    have hfp := hnames f hf
    exact caseSub_stable f hfp.1 hfp.2 _ _
      (fold_canon _ hnames (convertPowerL s) f hf) hLy
  have hFns2 : caseFoldFunctions (preprocessL s) = preprocessL s :=
    fold_fix _ _ hfns
  have hpiz : wordSub "pi".data false (wordSub "pi".data false
      (caseFoldFunctions (convertPowerL s))) = wordSub "pi".data false
      (caseFoldFunctions (convertPowerL s)) :=
    wordSub_idem "pi".data hpiN hpiL _ false
  have hpi2 : wordSub "pi".data false (preprocessL s) = preprocessL s :=
    wordSub_stable "pi".data hpiN hpiL _ _ false hpiz
      (wordSub_lowersOnly "e".data heN _ false)
  have he2 : wordSub "e".data false (preprocessL s) = preprocessL s :=
    wordSub_idem "e".data heN heL _ false
  show wordSub "e".data false (wordSub "pi".data false
    (caseFoldFunctions (convertPowerL (preprocessL s)))) = preprocessL s
  rw [hpow2, hFns2, hpi2, he2]

/-- C8: the preprocessor normalize is idempotent — for every input
string, applying preprocess_expression (power-operator rewrite plus
case folding) twice yields the same string as applying it once; and
handle("SIN(0)") replies Ok("0") under the libm fact sin(0.0) = 0.0
taken as hypothesis. -/
theorem c8_preprocess_idempotent :
    (∀ s : String,
      preprocess_expression (preprocess_expression s) = preprocess_expression s) ∧
    (∀ M : MathImpl, M.sinQ 0 = .ok 0 → handle M "SIN(0)" = some (.ok "0")) := by
  constructor
  · intro s
    unfold preprocess_expression
    dsimp only
    rw [preprocessL_idem s.data]
  · intro M h
    have hval : evalNode M (.call (.nameN "sin") (.cons (.constant (.intV 0)) .nil)) =
        .ok (.floatV 0) := by
      rw [show evalNode M (.call (.nameN "sin") (.cons (.constant (.intV 0)) .nil)) =
          (evalArgs M (.cons (.constant (.intV 0)) .nil)).bind (applyFunc M "sin")
          from rfl]
      rw [show evalArgs M (.cons (.constant (.intV 0)) .nil) = .ok [.intV 0] from rfl]
      show (M.sinQ (toQ (.intV 0))).map PyVal.floatV = _
      rw [show toQ (.intV 0) = 0 from by norm_num [toQ], h]
      rfl
    have hse : safe_evalL M "SIN(0)".data = .ok (.floatV 0) := by
      unfold safe_evalL
      rw [show (parseExprL (preprocessL "SIN(0)".data)).bind (evalNode M) =
          evalNode M (.call (.nameN "sin") (.cons (.constant (.intV 0)) .nil)) from rfl]
      rw [hval]
    unfold handle
    dsimp only
    rw [if_neg (by decide : ¬¬is_math_expressionL (stripL "SIN(0)".data) = true)]
    rw [show stripL "SIN(0)".data = "SIN(0)".data from rfl, hse]
    rfl

/-- Witness for c8_preprocess_idempotent: the quantified parts at
concrete inputs, hypotheses discharged by computation (defaultMath
agrees with the libm value sin(0.0) = 0.0). -/
theorem c8_preprocess_idempotent_witness :
    preprocess_expression (preprocess_expression "SIN(0)") = preprocess_expression "SIN(0)" ∧
    handle defaultMath "SIN(0)" = some (.ok "0") :=
  ⟨c8_preprocess_idempotent.1 "SIN(0)",
   c8_preprocess_idempotent.2 defaultMath (by
     rw [show defaultMath.sinQ 0 = .ok (if (0 : ℚ) = piF / 2 then 1 else 0) from rfl,
       if_neg (by norm_num [piF])])⟩

end Calcinium
